import Mathlib

/-!
Verification of the Robant state-model analyser and project validator.

The definitions below are a shallow embedding of `src/robant/states.py` and
`src/robant/projects.py`.  Python dictionaries are embedded as association
lists in insertion order (`dictGet` is `d[k]`, `dictSet` is `d[k] = v`),
Python tuples of pairs as `List (String × Nat)`, and fallible code returns
values paired with an optional error.  Machine integers in the source are
counts and bounds that the schema keeps non-negative, so they are embedded
as `Nat`.
-/

set_option autoImplicit false
set_option linter.unusedVariables false

namespace Robant

/-- Modelled from the spec: section 7 lists the distinct error kinds raised by
the analyser and the validator (`ModelPartitionError`, `ModelValidityError`,
`ModelSatisfactionError`, `ProjectIdentityError`, `ProjectChronologyError`);
the repository's `exceptions.py` predates these classes and does not define
them, so the taxonomy is taken from the spec.  The remaining constructors
embed Python runtime failures that the source can raise (`NameError`,
`KeyError`, `IndexError`, `ValueError`) plus exhaustion of the fuel that
makes the breadth-first search a total function. -/
inductive Err where
  | modelPartitionError (state : String)
  | modelValidityError (state : String)
  | modelSatisfactionError (states : List String)
  | projectIdentityError (slug : String)
  | projectChronologyError (tag : Nat)
  | nameError
  | keyError
  | indexError
  | valueError
  | fuel
  deriving DecidableEq

/-- Python dictionary lookup `d[k]` on an association list kept in insertion
order: the first binding of the key wins. -/
def dictGet {κ α : Type} [DecidableEq κ] (d : List (κ × α)) (k : κ) : Option α :=
  match d with
  | [] => none
  | p :: rest => if p.1 = k then some p.2 else dictGet rest k

/-- Python dictionary update `d[k] = v`: replace the binding in place when the
key is present, append it otherwise. -/
def dictSet {κ α : Type} [DecidableEq κ] (d : List (κ × α)) (k : κ) (v : α) : List (κ × α) :=
  match d with
  | [] => [(k, v)]
  | p :: rest => if p.1 = k then (k, v) :: rest else p :: dictSet rest k v

/-- One value of the `constraints` mapping of a `ConstrainedState` in
`MODEL.yml`: an exact count, a lower bound `(n,)`, a closed range `(n, m)`,
or a cross reference naming another action state. -/
inductive ConstraintEntry where
  | exact (n : Nat)
  | atLeast (n : Nat)
  | range (lo hi : Nat)
  | xref (target : String)
  deriving DecidableEq

/-- `EmptiedState` of `states.py`. -/
structure EmptiedState where
  precis : String
  deriving DecidableEq

/-- `ConstrainedState` of `states.py`. -/
structure ConstrainedState where
  precis : String
  constraints : List (String × ConstraintEntry)
  deriving DecidableEq

/-- `StateModel` of `states.py`.  The five pydantic dictionaries are embedded
as association lists in declaration order. -/
structure StateModel where
  fname : String
  action_states : List (String × EmptiedState)
  limb_states : List (String × EmptiedState)
  empty_states : List (String × EmptiedState)
  open_states : List (String × ConstrainedState)
  shut_states : List (String × ConstrainedState)
  deriving DecidableEq

/-- One compiled cardinality constraint `([ACTN_STATE ...], MIN)` or
`([ACTN_STATE ...], MIN, MAX)` as produced by `compileConstraints`. -/
structure Clause where
  actions : List String
  lo : Nat
  hi : Option Nat
  deriving DecidableEq

/-- The action-state names of a model in declaration order. -/
def actionNames (model : StateModel) : List String :=
  model.action_states.map (fun p => p.1)

/-- First pass of `compileConstraints` over one constrained project state:
every action state whose entry is concrete contributes a singleton clause, in
action-state declaration order; cross references are skipped.  A missing key
is Python's `KeyError`. -/
def compileBase (cons : List (String × ConstraintEntry)) :
    List String → Except Err (List Clause)
  | [] => .ok []
  | a :: rest =>
    match dictGet cons a with
    | none => .error .keyError
    | some (.exact n) =>
      match compileBase cons rest with
      | .ok cs => .ok (Clause.mk [a] n (some n) :: cs)
      | .error e => .error e
    | some (.atLeast n) =>
      match compileBase cons rest with
      | .ok cs => .ok (Clause.mk [a] n none :: cs)
      | .error e => .error e
    | some (.range n m) =>
      match compileBase cons rest with
      | .ok cs => .ok (Clause.mk [a] n (some m) :: cs)
      | .error e => .error e
    | some (.xref _) => compileBase cons rest

/-- The in-place update of the cross-reference loop of `compileConstraints`:
append `a` to the first clause whose first action state is the target `c`,
and leave the clauses unchanged when no clause matches. -/
def addXref (c a : String) : List Clause → List Clause
  | [] => []
  | cl :: rest =>
    if cl.actions.head? = some c then Clause.mk (cl.actions ++ [a]) cl.lo cl.hi :: rest
    else cl :: addXref c a rest

/-- Second pass of `compileConstraints` over one constrained project state:
merge every cross-referencing action state into the equivalence class of its
target. -/
def compileXrefs (cons : List (String × ConstraintEntry)) (acc : List Clause) :
    List String → Except Err (List Clause)
  | [] => .ok acc
  | a :: rest =>
    match dictGet cons a with
    | none => .error .keyError
    | some (.xref t) => compileXrefs cons (addXref t a acc) rest
    | some _ => compileXrefs cons acc rest

/-- Compilation of the constraints of one constrained project state. -/
def compileState (actions : List String) (cons : List (String × ConstraintEntry)) :
    Except Err (List Clause) :=
  match compileBase cons actions with
  | .ok base => compileXrefs cons base actions
  | .error e => .error e

/-- The compiled clauses of an empty project state: zero count of every
action state. -/
def zeroClauses (actions : List String) : List Clause :=
  actions.map (fun a => Clause.mk [a] 0 (some 0))

/-- The dictionary comprehension of `compileConstraints` over the empty
states: each empty state is constrained to zero counts of every action
state. -/
def compileEmpty (zc : List Clause) :
    List (String × EmptiedState) → List (String × List Clause) →
    List (String × List Clause)
  | [], acc => acc
  | p :: rest, acc => compileEmpty zc rest (dictSet acc p.1 zc)

/-- The loop of `compileConstraints` over the open and shut states. -/
def compileOpenShut (actions : List String) :
    List (String × ConstrainedState) → List (String × List Clause) →
    Except Err (List (String × List Clause))
  | [], acc => .ok acc
  | p :: rest, acc =>
    match compileState actions p.2.constraints with
    | .ok cs => compileOpenShut actions rest (dictSet acc p.1 cs)
    | .error e => .error e

/-- `compileConstraints` of `states.py`: empty states first, then the open
and shut states in declaration order, collected into a dictionary. -/
def compileConstraints (model : StateModel) : Except Err (List (String × List Clause)) :=
  let actions := actionNames model
  compileOpenShut actions (model.open_states ++ model.shut_states)
    (compileEmpty (zeroClauses actions) model.empty_states [])

/-- A bag of action counts: `ActionCounts` of `states.py`, a tuple of
action-state and count pairs. -/
abbrev Bag := List (String × Nat)

/-- The generator expression `sum(n for s, n in counts if s in actions)` of
`satisfies`. -/
def sumCounts (actions : List String) : Bag → Nat
  | [] => 0
  | p :: rest => (if p.1 ∈ actions then p.2 else 0) + sumCounts actions rest

/-- `satisfies` of `states.py`: check each compiled clause in turn, failing
as soon as the summed count falls below the lower bound or exceeds the upper
bound. -/
def satisfies : List Clause → Bag → Bool
  | [], _ => true
  | cl :: rest, counts =>
    let total := sumCounts cl.actions counts
    if cl.lo > total then false
    else
      match cl.hi with
      | some hi => if total > hi then false else satisfies rest counts
      | none => satisfies rest counts

/-- `classifiers` of `states.py`: the project states whose compiled
constraint is satisfied by the bag, in dictionary order. -/
def classifiers (constraints : List (String × List Clause)) (counts : Bag) : List String :=
  (constraints.filter (fun p => satisfies p.2 counts)).map (fun p => p.1)

/-- Inner loop of `checkModelPartition`: record each state of one section,
failing on a state name already recorded. -/
def partitionLoop (seen : List String) : List String → Except Err (List String)
  | [] => .ok seen
  | s :: rest =>
    if s ∈ seen then .error (.modelPartitionError s)
    else partitionLoop (seen ++ [s]) rest

/-- `checkModelPartition` of `states.py`: the five sections are scanned in
order against a shared map of previously declared state names. -/
def checkModelPartition (model : StateModel) : Except Err Unit :=
  match partitionLoop [] (model.action_states.map (fun p => p.1)) with
  | .error e => .error e
  | .ok seen1 =>
    match partitionLoop seen1 (model.limb_states.map (fun p => p.1)) with
    | .error e => .error e
    | .ok seen2 =>
      match partitionLoop seen2 (model.empty_states.map (fun p => p.1)) with
      | .error e => .error e
      | .ok seen3 =>
        match partitionLoop seen3 (model.open_states.map (fun p => p.1)) with
        | .error e => .error e
        | .ok seen4 =>
          match partitionLoop seen4 (model.shut_states.map (fun p => p.1)) with
          | .error e => .error e
          | .ok _ => .ok ()

/-- First validity loop: every key of the constraints must be a declared
action state. -/
def checkKeysKnown (actions : List String) :
    List (String × ConstraintEntry) → Except Err Unit
  | [] => .ok ()
  | p :: rest =>
    if p.1 ∈ actions then checkKeysKnown actions rest
    else .error (.modelValidityError p.1)

/-- Second validity loop: every declared action state must be a key of the
constraints. -/
def checkAllConstrained (cons : List (String × ConstraintEntry)) :
    List String → Except Err Unit
  | [] => .ok ()
  | a :: rest =>
    if (dictGet cons a).isSome then checkAllConstrained cons rest
    else .error (.modelValidityError a)

/-- Third validity loop: every cross reference must name a declared action
state whose own entry is not itself a cross reference. -/
def checkXrefs (actions : List String) (cons : List (String × ConstraintEntry)) :
    List (String × ConstraintEntry) → Except Err Unit
  | [] => .ok ()
  | (a, c) :: rest =>
    match c with
    | .xref t =>
      if t ∈ actions then
        match dictGet cons t with
        | some (.xref _) => .error (.modelValidityError a)
        | some _ => checkXrefs actions cons rest
        | none => .error .keyError
      else .error (.modelValidityError a)
    | _ => checkXrefs actions cons rest

/-- Per-state body of `checkModelValidity`. -/
def checkValidityState (actions : List String)
    (cons : List (String × ConstraintEntry)) : Except Err Unit :=
  match checkKeysKnown actions cons with
  | .error e => .error e
  | .ok _ =>
    match checkAllConstrained cons actions with
    | .error e => .error e
    | .ok _ => checkXrefs actions cons cons

/-- Outer loop of `checkModelValidity` over the open and shut states. -/
def validityLoop (actions : List String) :
    List (String × ConstrainedState) → Except Err Unit
  | [] => .ok ()
  | p :: rest =>
    match checkValidityState actions p.2.constraints with
    | .error e => .error e
    | .ok _ => validityLoop actions rest

/-- `checkModelValidity` of `states.py`. -/
def checkModelValidity (model : StateModel) : Except Err Unit :=
  validityLoop (actionNames model) (model.open_states ++ model.shut_states)

/-- Lexicographic comparison of character lists by code point, embedding the
string comparison that Python's `sorted` performs. -/
def charsLe : List Char → List Char → Bool
  | [], _ => true
  | _ :: _, [] => false
  | c :: cs, d :: ds =>
    if c.toNat < d.toNat then true
    else if d.toNat < c.toNat then false
    else charsLe cs ds

/-- String comparison by code points. -/
def strLe (a b : String) : Bool :=
  charsLe a.data b.data

/-- Python's comparison of `(int, str)` tuples: lexicographic. -/
def pairLe (x y : Nat × String) : Bool :=
  if x.1 < y.1 then true
  else if y.1 < x.1 then false
  else strLe x.2 y.2

/-- Python `sorted` on a list of strings. -/
def sortStrings (l : List String) : List String :=
  List.insertionSort (fun a b => strLe a b = true) l

/-- Python `sorted` on a list of `(int, str)` tuples. -/
def sortPairs (l : List (Nat × String)) : List (Nat × String) :=
  List.insertionSort (fun a b => pairLe a b = true) l

/-- Python `bag in bag_index` and `bag_index[bag]` on the bag index. -/
def lookupIndex : List (Bag × String) → Bag → Option String
  | [], _ => none
  | p :: rest, b => if p.1 = b then some p.2 else lookupIndex rest b

/-- Python `bag_index.pop(bag)`: drop the binding of the bag. -/
def eraseIndex : List (Bag × String) → Bag → List (Bag × String)
  | [], _ => []
  | p :: rest, b => if p.1 = b then rest else p :: eraseIndex rest b

/-- The total count of actions in a bag: `sum(c for _, c in counts)`. -/
def bagDepth (bag : Bag) : Nat :=
  (bag.map (fun p => p.2)).sum

/-- The mutable search state of `yieldClassifications`: the FIFO queue of
bags on the frontier and the index from queued bags to their classifiers.
The start bag is also preloaded into the index. -/
structure SearchState where
  fifo : List Bag
  index : List (Bag × String)
  deriving DecidableEq

/-- The bag obtained by inserting one action of state `a`. -/
def insertBag (bag : Bag) (a : String) : Bag :=
  bag.map (fun p => (p.1, if p.1 = a then p.2 + 1 else p.2))

/-- The bag obtained by transitioning one action from state `a_curr` to
state `a_succ`. -/
def transBag (bag : Bag) (a_curr a_succ : String) : Bag :=
  bag.map (fun p =>
    (p.1, if p.1 = a_curr then p.2 - 1 else if p.1 = a_succ then p.2 + 1 else p.2))

/-- `pushBag` of `yieldClassifications`: push an unseen bag onto the FIFO
queue when it is classified by exactly one project state and the gating on
open states holds.  When the bag satisfies more than one project state the
source raises; its message formats the undefined name `states`
(`succ_states` was intended), so the exception that actually escapes is
Python's `NameError`. -/
def pushBag (constraints : List (String × List Clause)) (openS : List String)
    (curr_state : String) (st : SearchState) (succ_bag : Bag) :
    Except Err SearchState :=
  if (lookupIndex st.index succ_bag).isSome then .ok st
  else
    match classifiers constraints succ_bag with
    | [succ_state] =>
      if succ_state ∈ openS ∨ curr_state ∈ openS then
        .ok ⟨st.fifo ++ [succ_bag], st.index ++ [(succ_bag, succ_state)]⟩
      else .ok st
    | [] => .ok st
    | _ => .error .nameError

/-- The successor bags of one popped bag reachable by inserting an action. -/
def pushInserts (constraints : List (String × List Clause)) (openS actions : List String)
    (state : String) (bag : Bag) (st : SearchState) : Except Err SearchState :=
  actions.foldlM (fun acc a => pushBag constraints openS state acc (insertBag bag a)) st

/-- The successor bags of one newly queued bag reachable by transitioning an
action. -/
def pushTransitions (constraints : List (String × List Clause)) (openS actions : List String)
    (new_state : String) (new_bag : Bag) (st : SearchState) : Except Err SearchState :=
  new_bag.foldlM
    (fun acc p =>
      if p.2 > 0 then
        actions.foldlM
          (fun acc2 a_succ =>
            if a_succ ≠ p.1 then
              pushBag constraints openS new_state acc2 (transBag new_bag p.1 a_succ)
            else pure acc2)
          acc
      else pure acc)
    st

/-- The `while new_bag_pos < len(bag_fifo)` loop of `yieldClassifications`:
walk the bags appended during the current round, pushing their transition
successors, including the cascade onto bags appended by the walk itself. -/
def cascade (constraints : List (String × List Clause)) (openS actions : List String) :
    Nat → Nat → SearchState → Except Err SearchState
  | 0, _, _ => .error .fuel
  | fuel + 1, pos, st =>
    match st.fifo.drop pos with
    | [] => .ok st
    | new_bag :: _ =>
      match lookupIndex st.index new_bag with
      | none => .error .keyError
      | some new_state =>
        match pushTransitions constraints openS actions new_state new_bag st with
        | .error e => .error e
        | .ok st2 => cascade constraints openS actions fuel (pos + 1) st2

/-- Resumption of the generator after one yield: collect the insertion
successors of the popped bag, then the transition successors of the bags
appended this round. -/
def processBag (constraints : List (String × List Clause)) (openS actions : List String)
    (fuel : Nat) (state : String) (bag : Bag) (st : SearchState) :
    Except Err SearchState :=
  let pos := st.fifo.length
  match pushInserts constraints openS actions state bag st with
  | .error e => .error e
  | .ok st1 => cascade constraints openS actions fuel pos st1

/-- Remove the first occurrence of a pair, embedding Python's
`state_queue.remove((depth, state))`. -/
def removeFirst : List (Nat × String) → Nat × String → List (Nat × String)
  | [], _ => []
  | x :: rest, y => if x = y then rest else x :: removeFirst rest y

/-- The consumer loop of `checkModelSatisfaction` fused with the generator
`yieldClassifications`.  Each iteration pops the oldest bag, records the
yielded classification on the trace, runs the body of the `for` loop of
`checkModelSatisfaction`, and on continuation resumes the generator to
collect successor bags.  Returning `true` is the source's `return True`;
returning `false` is the implicit `None` returned when the generator's
frontier is exhausted. -/
def satLoop (constraints : List (String × List Clause)) (openS actions : List String) :
    Nat → List (Nat × String) → SearchState → List (String × Bag) →
    Except Err (Bool × List (String × Bag))
  | 0, _, _, _ => .error .fuel
  | fuel + 1, queue, st, trace =>
    match st.fifo with
    | [] => .ok (false, trace)
    | bag :: rest =>
      match lookupIndex st.index bag with
      | none => .error .keyError
      | some state =>
        let st1 : SearchState := ⟨rest, eraseIndex st.index bag⟩
        let tr := trace ++ [(state, bag)]
        let depth := bagDepth bag
        match queue with
        | [] => .error .indexError
        | (d0, s0) :: qrest =>
          if depth = d0 then
            if (depth, state) ∈ (d0, s0) :: qrest then
              let q2 := removeFirst ((d0, s0) :: qrest) (depth, state)
              if q2 = [] then .ok (true, tr)
              else
                match processBag constraints openS actions fuel state bag st1 with
                | .error e => .error e
                | .ok st2 => satLoop constraints openS actions fuel q2 st2 tr
            else
              match processBag constraints openS actions fuel state bag st1 with
              | .error e => .error e
              | .ok st2 => satLoop constraints openS actions fuel ((d0, s0) :: qrest) st2 tr
          else if depth > d0 then
            .error (.modelSatisfactionError
              ((((d0, s0) :: qrest).filter (fun p => decide (p.1 < depth))).map (fun p => p.2)))
          else
            match processBag constraints openS actions fuel state bag st1 with
            | .error e => .error e
            | .ok st2 => satLoop constraints openS actions fuel ((d0, s0) :: qrest) st2 tr

/-- The sum of the lower bounds of a compiled constraint:
`sum(m for _, m, *_ in c)` in `checkModelSatisfaction`. -/
def minDepth (cs : List Clause) : Nat :=
  (cs.map (fun cl => cl.lo)).sum

/-- The start bag of `yieldClassifications`: zero count of every action
state, in sorted order. -/
def startBag (model : StateModel) : Bag :=
  (sortStrings (actionNames model)).map (fun a => (a, 0))

/-- `checkModelSatisfaction` of `states.py`, instrumented with the trace of
yielded classifications.  `valueError` embeds the unpacking failure of
`empty_state, *_ = model.empty_states` on a model with no empty state. -/
def checkModelSatisfactionT (fuel : Nat) (model : StateModel) :
    Except Err (Bool × List (String × Bag)) :=
  match compileConstraints model with
  | .error e => .error e
  | .ok constraints =>
    let queue := sortPairs (constraints.map (fun p => (minDepth p.2, p.1)))
    let actions := sortStrings (actionNames model)
    match model.empty_states with
    | [] => .error .valueError
    | (e0, _) :: _ =>
      let openS := model.empty_states.map (fun p => p.1) ++ model.open_states.map (fun p => p.1)
      let bag0 := actions.map (fun a => (a, 0))
      satLoop constraints openS actions fuel queue ⟨[bag0], [(bag0, e0)]⟩ []

/-- `checkModelSatisfaction` of `states.py`: the trace is discarded;
`.ok true` is the source's `return True` and `.ok false` the implicit
`return None`. -/
def checkModelSatisfaction (fuel : Nat) (model : StateModel) : Except Err Bool :=
  match checkModelSatisfactionT fuel model with
  | .ok p => .ok p.1
  | .error e => .error e

/-- One logbook entry of `projects.py`: a transition entry carries `at`,
`to`, and the optional `from`, an interval entry carries `start` and `stop`.
Timestamps are embedded as naturals; only their order matters to the
validator.  The optional note and tracker references carried by entries are
not read by any check and are omitted. -/
inductive LogEntry where
  | transition (at_ : Nat) (to_state : String) (from_state : Option String)
  | interval (start stop : Nat)
  deriving DecidableEq

/-- `ProjectMetadata` of `projects.py`.  The metadata path is embedded as
its list of segments so that `fname.parent.name` is expressible; the tag
list and tracker reference are not read by the embedded checks and are
omitted. -/
structure ProjectMetadata where
  fname : List String
  uuid : String
  slug : String
  title : String
  todo : String
  logbook : List LogEntry
  deriving DecidableEq

/-- `metadata.fname.parent.name`: the name of the folder holding the
metadata file. -/
def parentName (p : List String) : String :=
  p.dropLast.getLastD ""

/-- The limb-state names of a model. -/
def limbNames (model : StateModel) : List String :=
  model.limb_states.map (fun p => p.1)

/-- The shut-state names of a model. -/
def shutNames (model : StateModel) : List String :=
  model.shut_states.map (fun p => p.1)

/-- `checkProjectIdentity` of `projects.py`.  The run-global `uuids` map is
mutated in place by the source, so the updated map is returned next to the
optional error.  On a UUID collision the source raises with a message built
from the undefined name `fname` (`metadata.fname` was intended), so the
exception that actually escapes is Python's `NameError`. -/
def checkProjectIdentity (model : StateModel) (uuids : List (String × List String))
    (label : String) (metadata : ProjectMetadata) :
    List (String × List String) × Option Err :=
  if (dictGet uuids metadata.uuid).isSome then
    (uuids, some .nameError)
  else
    let uuids2 := dictSet uuids metadata.uuid metadata.fname
    if metadata.slug ≠ parentName metadata.fname ∧ metadata.todo ∉ limbNames model then
      (uuids2, some (.projectIdentityError metadata.slug))
    else (uuids2, none)

/-- Modelled from the spec: the run-global interval index of section 4.6 and
section 9.  The third-party interval tree used by `projects.py` is not part
of the repository source; per the spec any index supporting
`query(start, stop)` over half-open intervals and `insert(start, stop,
payload)` suffices, so it is embedded as the list of recorded
`(start, stop, payload)` entries. -/
abbrev ITree := List (Nat × Nat × List String)

/-- Modelled from the spec: `intervals[start:stop]`, the entries whose
half-open interval overlaps the half-open query range. -/
def treeQuery (tree : ITree) (a b : Nat) : ITree :=
  List.filter (fun iv => decide (iv.1 < b ∧ a < iv.2.1)) tree

/-- Modelled from the spec: `intervals[start:stop] = payload`. -/
def treeInsert (tree : ITree) (a b : Nat) (payload : List String) : ITree :=
  List.append tree [(a, b, payload)]

/-- Numeric tags for the distinct `ProjectChronologyError` diagnoses of
`checkProjectChronology`, in source order: 0 negative interval, 1
overlapping interval, 2 missing inception, 3 limb activity, 4 out of
sequence entry, 5 transition disagreeing with the preceding state, 6 effort
against a limb state, 7 effort against a shut state, 8 final state
disagreeing with the project state. -/
def chronoTagNegative : Nat := 0

/-- Tag for an overlapping logbook interval. -/
def chronoTagOverlap : Nat := 1

/-- Tag for a logbook not recording the project inception. -/
def chronoTagInception : Nat := 2

/-- Tag for a limb project recording activity. -/
def chronoTagLimbActivity : Nat := 3

/-- Tag for a logbook entry starting before the preceding entry stops. -/
def chronoTagSequence : Nat := 4

/-- Tag for a transition that does not record the preceding state. -/
def chronoTagContinuity : Nat := 5

/-- Tag for effort recorded against a limb project state. -/
def chronoTagLimbEffort : Nat := 6

/-- Tag for effort recorded against a shut project state. -/
def chronoTagShutEffort : Nat := 7

/-- Tag for a final logbook state disagreeing with the project state. -/
def chronoTagFinalState : Nat := 8

/-- The first loop of `checkProjectChronology`: check each interval entry of
the logbook in order for non-negativity and overlap, and record it in the
run-global interval index. -/
def intervalLoop (tree : ITree) (fname : List String) :
    List LogEntry → ITree × Option Err
  | [] => (tree, none)
  | .transition _ _ _ :: rest => intervalLoop tree fname rest
  | .interval start stop :: rest =>
    if stop < start then (tree, some (.projectChronologyError chronoTagNegative))
    else if treeQuery tree start stop ≠ [] then
      (tree, some (.projectChronologyError chronoTagOverlap))
    else intervalLoop (treeInsert tree start stop fname) fname rest

/-- The final loop of `checkProjectChronology`: walk the logbook from oldest
to newest (`metadata.logbook[-2::-1]`) carrying the preceding state and stop
time, and return the last recorded state. -/
def chronologyWalk (model : StateModel) :
    String → Nat → List LogEntry → Except Err String
  | pred_state, _, [] => .ok pred_state
  | pred_state, pred_stop, .transition a t f :: rest =>
    if a < pred_stop then .error (.projectChronologyError chronoTagSequence)
    else if f ≠ some pred_state then .error (.projectChronologyError chronoTagContinuity)
    else chronologyWalk model t a rest
  | pred_state, pred_stop, .interval start stop :: rest =>
    if start < pred_stop then .error (.projectChronologyError chronoTagSequence)
    else if pred_state ∈ limbNames model then
      .error (.projectChronologyError chronoTagLimbEffort)
    else if pred_state ∈ shutNames model then
      .error (.projectChronologyError chronoTagShutEffort)
    else chronologyWalk model pred_state stop rest

/-- `checkProjectChronology` of `projects.py`.  The run-global interval tree
is mutated in place by the source, so the updated tree is returned next to
the optional error.  `metadata.logbook[-1]` on an empty logbook is Python's
`IndexError`.  The inception test `not isinstance(..., TransitionEntry) or
logbook[-1].from_state` treats any present `from` state as truthy, which
agrees with the source because state names match `[A-Z]+` and are never
empty. -/
def checkProjectChronology (model : StateModel) (tree : ITree)
    (metadata : ProjectMetadata) : ITree × Option Err :=
  match intervalLoop tree metadata.fname metadata.logbook with
  | (tree2, some e) => (tree2, some e)
  | (tree2, none) =>
    match metadata.logbook.getLast? with
    | none => (tree2, some .indexError)
    | some last =>
      match last with
      | .transition at0 to0 none =>
        if metadata.todo ∈ limbNames model ∧ metadata.logbook.length > 1 then
          (tree2, some (.projectChronologyError chronoTagLimbActivity))
        else
          match chronologyWalk model to0 at0 metadata.logbook.dropLast.reverse with
          | .error e => (tree2, some e)
          | .ok final_state =>
            if final_state ≠ metadata.todo then
              (tree2, some (.projectChronologyError chronoTagFinalState))
            else (tree2, none)
      | _ => (tree2, some (.projectChronologyError chronoTagInception))

/-- Modelled from the spec: the search-rule graph of section 4.4.  A bag is
reachable from the start bag when it is the start bag or arises from a
reachable, uniquely classified bag by inserting one action or transitioning
one action between distinct states, where the gating requires the source
bag's classifier or the successor bag's classifier to be an open state. -/
inductive Reach (C : List (String × List Clause)) (openS actions : List String)
    (start : Bag) : Bag → Prop where
  | start : Reach C openS actions start start
  | insertStep (b : Bag) (s a : String) :
      Reach C openS actions start b →
      classifiers C b = [s] →
      a ∈ actions →
      (s ∈ openS ∨ ∃ s2, classifiers C (insertBag b a) = [s2] ∧ s2 ∈ openS) →
      Reach C openS actions start (insertBag b a)
  | transStep (b : Bag) (s a1 a2 : String) (n : Nat) :
      Reach C openS actions start b →
      classifiers C b = [s] →
      a1 ∈ actions → a2 ∈ actions → a1 ≠ a2 →
      (a1, n) ∈ b → 0 < n →
      (s ∈ openS ∨ ∃ s2, classifiers C (transBag b a1 a2) = [s2] ∧ s2 ∈ openS) →
      Reach C openS actions start (transBag b a1 a2)

/-- A state model whose shut state `S` demands between 2 and 1 actions of
state `W` — a contradiction, so `S` is satisfied by no bag at all.  The
model passes the partition and validity checks. -/
def modelUnsat : StateModel :=
  { fname := "STATES"
    action_states := [("W", ⟨"work"⟩)]
    limb_states := []
    empty_states := [("N", ⟨"note"⟩)]
    open_states := []
    shut_states := [("S", ⟨"start", [("W", .range 2 1)]⟩)] }

/-- A state model in which the bag holding one `W` action satisfies both the
open state `A` (at least one `W`) and the shut state `B` (exactly one `W`). -/
def modelMulti : StateModel :=
  { fname := "STATES"
    action_states := [("W", ⟨"work"⟩)]
    limb_states := []
    empty_states := [("N", ⟨"note"⟩)]
    open_states := [("A", ⟨"open", [("W", .atLeast 1)]⟩)]
    shut_states := [("B", ⟨"shut", [("W", .range 1 1)]⟩)] }

/-- The compiled constraints of `modelMulti`. -/
def compiledMulti : List (String × List Clause) :=
  [("N", [Clause.mk ["W"] 0 (some 0)]),
   ("A", [Clause.mk ["W"] 1 none]),
   ("B", [Clause.mk ["W"] 1 (some 1)])]

/-- A state model that `checkModelSatisfaction` accepts with an early
`return True` while the bag `{U: 1, V: 1, W: 2}` is reachable under the
search rules and satisfies both `Y` and `Q`. -/
def modelCutoff : StateModel :=
  { fname := "STATES"
    action_states := [("U", ⟨"u"⟩), ("V", ⟨"v"⟩), ("W", ⟨"w"⟩)]
    limb_states := []
    empty_states := [("N", ⟨"note"⟩)]
    open_states :=
      [("P1", ⟨"p1", [("U", .range 1 1), ("V", .range 0 0), ("W", .range 0 0)]⟩),
       ("P2", ⟨"p2", [("U", .range 0 0), ("V", .range 0 0), ("W", .range 1 1)]⟩),
       ("Y", ⟨"y", [("U", .range 1 1), ("V", .range 1 1), ("W", .atLeast 0)]⟩),
       ("Q", ⟨"q", [("U", .atLeast 0), ("V", .atLeast 0), ("W", .range 2 2)]⟩)]
    shut_states := [] }

/-- The compiled constraints of `modelCutoff`. -/
def compiledCutoff : List (String × List Clause) :=
  [("N", [Clause.mk ["U"] 0 (some 0), Clause.mk ["V"] 0 (some 0), Clause.mk ["W"] 0 (some 0)]),
   ("P1", [Clause.mk ["U"] 1 (some 1), Clause.mk ["V"] 0 (some 0), Clause.mk ["W"] 0 (some 0)]),
   ("P2", [Clause.mk ["U"] 0 (some 0), Clause.mk ["V"] 0 (some 0), Clause.mk ["W"] 1 (some 1)]),
   ("Y", [Clause.mk ["U"] 1 (some 1), Clause.mk ["V"] 1 (some 1), Clause.mk ["W"] 0 none]),
   ("Q", [Clause.mk ["U"] 0 none, Clause.mk ["V"] 0 none, Clause.mk ["W"] 2 (some 2)])]

/-- The open-state gate set of `modelCutoff`: its empty state followed by
its open states. -/
def openCutoff : List String :=
  ["N", "P1", "P2", "Y", "Q"]

/-- The doubly classified bag of `modelCutoff`. -/
def bagDouble : Bag :=
  [("U", 1), ("V", 1), ("W", 2)]

/-- The yield trace of the satisfiability search on `modelCutoff`. -/
def traceCutoff : List (String × Bag) :=
  [("N", [("U", 0), ("V", 0), ("W", 0)]),
   ("P1", [("U", 1), ("V", 0), ("W", 0)]),
   ("P2", [("U", 0), ("V", 0), ("W", 1)]),
   ("Y", [("U", 1), ("V", 1), ("W", 0)]),
   ("Q", [("U", 0), ("V", 0), ("W", 2)])]

/-- A state model shared by the project-validator fixtures: one limb state
`R`, one empty state `N`, one open state `A`, one shut state `B`. -/
def modelProj : StateModel :=
  { fname := "STATES"
    action_states := [("W", ⟨"work"⟩)]
    limb_states := [("R", ⟨"root"⟩)]
    empty_states := [("N", ⟨"note"⟩)]
    open_states := [("A", ⟨"active", [("W", .atLeast 0)]⟩)]
    shut_states := [("B", ⟨"closed", [("W", .atLeast 0)]⟩)] }

/-- A leaf project whose slug matches its folder. -/
def metaLeaf : ProjectMetadata :=
  { fname := ["r", "proj", "METADATA.yml"]
    uuid := "u1"
    slug := "proj"
    title := "t"
    todo := "A"
    logbook := [.transition 0 ("A") none] }

/-- A leaf project whose slug does not match its folder name. -/
def metaMismatch : ProjectMetadata :=
  { fname := ["r", "folder", "METADATA.yml"]
    uuid := "u2"
    slug := "other"
    title := "t"
    todo := "A"
    logbook := [.transition 0 ("A") none] }

/-- A project metadata with an empty logbook. -/
def metaEmptyLog : ProjectMetadata :=
  { fname := ["r", "proj2", "METADATA.yml"]
    uuid := "u3"
    slug := "proj2"
    title := "t"
    todo := "A"
    logbook := [] }

/-- A leaf project recording a zero-length logbook interval. -/
def metaZeroLen : ProjectMetadata :=
  { fname := ["r", "proj3", "METADATA.yml"]
    uuid := "u4"
    slug := "proj3"
    title := "t"
    todo := "A"
    logbook := [.interval 5 5, .transition 0 ("A") none] }

/-- Does the constraint entry of `a` cross-reference another action state? -/
def xrefFlag (cons : List (String × ConstraintEntry)) (a : String) : Bool :=
  match dictGet cons a with
  | some (.xref _) => true
  | _ => false

/-- The action states of a clause list, with multiplicity. -/
def clauseActions (cs : List Clause) : List String :=
  (cs.map (fun cl => cl.actions)).flatten

/-- Invariant of the bag index: every recorded binding is the preloaded
start bag mapped to the first empty state, or a bag mapped to its unique
classifier. -/
def IndexOK (C : List (String × List Clause)) (b0 : Bag) (e0 : String)
    (st : SearchState) : Prop :=
  ∀ p ∈ st.index, (p.1 = b0 ∧ p.2 = e0) ∨ classifiers C p.1 = [p.2]

/-- A state model exercising a cross reference: in state `A` the action
state `W` is merged into the class of `H`. -/
def modelXref : StateModel :=
  { fname := "STATES"
    action_states := [("H", ⟨"hold"⟩), ("W", ⟨"work"⟩)]
    limb_states := []
    empty_states := [("N", ⟨"note"⟩)]
    open_states := [("A", ⟨"active", [("H", .atLeast 1), ("W", .xref "H")]⟩)]
    shut_states := [] }

/-- Claim C1: for every state model that passes the partition and validity
checks and in which some project state in the empty, open, or shut sections
is satisfied by no reachable bag, `checkModelSatisfaction` fails with a
`ModelSatisfactionError` naming that state and does not return without
raising.  The code violates this: on `modelUnsat`, whose shut state `S` is
satisfied by no bag at all, the breadth-first frontier is exhausted before
any yield overshoots the todo queue, the generator stops, and
`checkModelSatisfaction` falls off its `for` loop returning `None` — no
exception is raised. -/
theorem claim_C1 :
    checkModelPartition modelUnsat = .ok () ∧
    checkModelValidity modelUnsat = .ok () ∧
    compileConstraints modelUnsat =
      .ok [("N", [Clause.mk ["W"] 0 (some 0)]), ("S", [Clause.mk ["W"] 2 (some 1)])] ∧
    (∀ bag : Bag, satisfies [Clause.mk ["W"] 2 (some 1)] bag = false) ∧
    checkModelSatisfaction 10 modelUnsat = .ok false := by
  refine ⟨rfl, rfl, rfl, ?_, rfl⟩
  intro bag
  simp only [satisfies]
  split
  · rfl
  · split
    · rfl
    · omega

/-- Claim C2: whenever a successor bag satisfies the constraints of more
than one project state, the search fails immediately by raising
`ModelSatisfactionError` and no other kind of exception.  The code violates
this: the raising branch of `pushBag` formats its message from the undefined
name `states`, so the exception that actually escapes is Python's
`NameError`.  On `modelMulti` the successor bag `{W: 1}` satisfies both `A`
and `B` and the run ends in `NameError`. -/
theorem claim_C2 :
    compileConstraints modelMulti = .ok compiledMulti ∧
    classifiers compiledMulti [("W", 1)] = ["A", "B"] ∧
    checkModelSatisfaction 10 modelMulti = .error .nameError := by
  exact ⟨rfl, rfl, rfl⟩

/-- Claim C3, counterexample: the claim reads "for every state model on
which `checkModelSatisfaction` returns successfully (the model is accepted),
every project state in the empty, open, and shut sections is yielded at
least once".  On `modelUnsat` the function returns successfully — it raises
nothing and returns `None`, which `runModel` treats as acceptance — yet the
shut state `S` is never yielded: the whole trace is the single yield of `N`
at the start bag. -/
theorem claim_C3_counterexample :
    checkModelSatisfactionT 10 modelUnsat = .ok (false, [("N", [("W", 0)])]) ∧
    "S" ∈ modelUnsat.empty_states.map (fun p => p.1) ++
      modelUnsat.open_states.map (fun p => p.1) ++
      modelUnsat.shut_states.map (fun p => p.1) ∧
    "S" ∉ ([("N", [("W", 0)])] : List (String × Bag)).map (fun p => p.1) := by
  exact ⟨rfl, by decide, by decide⟩

/-- Claim C4, counterexample: the claim reads "for every state model on
which `checkModelSatisfaction` returns successfully, every bag reachable
from the all-zero bag by the search rules has 0 or 1 classifiers".
`modelCutoff` is accepted with `return True`, but the queue empties while
the frontier still holds unexplored bags: the bag `{U: 1, V: 1, W: 2}` is
reachable by four action insertions through uniquely classified open-state
bags and satisfies both `Y` and `Q`. -/
theorem claim_C4_counterexample :
    compileConstraints modelCutoff = .ok compiledCutoff ∧
    checkModelSatisfaction 40 modelCutoff = .ok true ∧
    Reach compiledCutoff openCutoff ["U", "V", "W"]
      [("U", 0), ("V", 0), ("W", 0)] bagDouble ∧
    (classifiers compiledCutoff bagDouble).length = 2 := by
  refine ⟨rfl, rfl, ?_, rfl⟩
  have r0 : Reach compiledCutoff openCutoff ["U", "V", "W"]
      [("U", 0), ("V", 0), ("W", 0)] [("U", 0), ("V", 0), ("W", 0)] := .start
  have r1 : Reach compiledCutoff openCutoff ["U", "V", "W"]
      [("U", 0), ("V", 0), ("W", 0)] [("U", 1), ("V", 0), ("W", 0)] :=
    Reach.insertStep _ ("N") ("U") r0 (by decide) (by decide) (Or.inl (by decide))
  have r2 : Reach compiledCutoff openCutoff ["U", "V", "W"]
      [("U", 0), ("V", 0), ("W", 0)] [("U", 1), ("V", 1), ("W", 0)] :=
    Reach.insertStep _ ("P1") ("V") r1 (by decide) (by decide) (Or.inl (by decide))
  have r3 : Reach compiledCutoff openCutoff ["U", "V", "W"]
      [("U", 0), ("V", 0), ("W", 0)] [("U", 1), ("V", 1), ("W", 1)] :=
    Reach.insertStep _ ("Y") ("W") r2 (by decide) (by decide) (Or.inl (by decide))
  exact Reach.insertStep _ ("Y") ("W") r3 (by decide) (by decide) (Or.inl (by decide))

/-- Inversion of one step of `satisfies`. -/
theorem satisfies_cons (cl : Clause) (rest : List Clause) (counts : Bag) :
    satisfies (cl :: rest) counts = true ↔
      cl.lo ≤ sumCounts cl.actions counts ∧
      (∀ hi, cl.hi = some hi → sumCounts cl.actions counts ≤ hi) ∧
      satisfies rest counts = true := by
  simp only [satisfies]
  split
  next hlt =>
    constructor
    · intro h; cases h
    · rintro ⟨h1, -, -⟩; omega
  next hlt =>
    split
    next hi0 hhi =>
      split
      next hgt =>
        constructor
        · intro h; cases h
        · rintro ⟨-, h2, -⟩
          have := h2 hi0 hhi
          omega
      next hgt =>
        constructor
        · intro h
          refine ⟨by omega, ?_, h⟩
          intro hi hh
          rw [hhi] at hh
          injection hh with hh2
          omega
        · rintro ⟨-, -, h⟩; exact h
    next hhi =>
      constructor
      · intro h
        refine ⟨by omega, ?_, h⟩
        intro hi hh
        rw [hhi] at hh
        cases hh
      · rintro ⟨-, -, h⟩; exact h

/-- Claim C5: `satisfies(constraint, counts)` returns true if and only if,
for every clause, the sum of the counts over the action states of the clause
is at least the lower bound and, when an upper bound is present, at most the
upper bound. -/
theorem claim_C5 (constraint : List Clause) (counts : Bag) :
    satisfies constraint counts = true ↔
      ∀ cl ∈ constraint,
        cl.lo ≤ sumCounts cl.actions counts ∧
        ∀ hi, cl.hi = some hi → sumCounts cl.actions counts ≤ hi := by
  induction constraint with
  | nil => simp [satisfies]
  | cons cl rest ih =>
    rw [satisfies_cons, ih]
    constructor
    · rintro ⟨h1, h2, h3⟩
      intro cl2 hcl2
      rcases List.mem_cons.mp hcl2 with hcl2 | hcl2
      · exact hcl2 ▸ ⟨h1, h2⟩
      · exact h3 cl2 hcl2
    · intro h
      refine ⟨(h cl (List.mem_cons_self cl rest)).1,
        (h cl (List.mem_cons_self cl rest)).2, ?_⟩
      intro cl2 hcl2
      exact h cl2 (List.mem_cons_of_mem cl hcl2)

/-- Looking a key up right after setting it returns the new value. -/
theorem dictGet_dictSet_self {κ α : Type} [DecidableEq κ] (d : List (κ × α)) (k : κ) (v : α) :
    dictGet (dictSet d k v) k = some v := by
  induction d with
  | nil => simp [dictGet, dictSet]
  | cons p rest ih =>
    by_cases h : p.1 = k
    · simp [dictSet, h, dictGet]
    · simp [dictSet, h, dictGet, ih]

/-- Claim C7: a call of `checkProjectIdentity` whose UUID is absent from the
run-global map inserts the UUID mapped to the metadata path; a call whose
UUID is already a key fails by raising `ProjectIdentityError` and no other
kind of exception.  The first half holds, but the code violates the second:
the collision branch builds its message from the undefined name `fname`
(`metadata.fname` was intended), so the exception that actually escapes is
Python's `NameError`. -/
theorem claim_C7 :
    checkProjectIdentity modelProj [] ("LEAF") metaLeaf =
      ([("u1", ["r", "proj", "METADATA.yml"])], none) ∧
    checkProjectIdentity modelProj [("u1", ["r", "other", "METADATA.yml"])]
        ("LEAF") metaLeaf =
      ([("u1", ["r", "other", "METADATA.yml"])], some Err.nameError) := by
  exact ⟨rfl, rfl⟩

/-- Claim C9: `checkProjectIdentity` is not atomic on failure.  For a
project whose UUID is fresh but whose slug differs from its folder while its
state is not a limb state, the call raises `ProjectIdentityError` after
having already inserted the UUID into the shared map, and a later call
reusing that UUID takes the collision branch against the failed project. -/
theorem claim_C9 (model : StateModel) (uuids : List (String × List String))
    (label : String) (m m2 : ProjectMetadata)
    (h1 : dictGet uuids m.uuid = none)
    (h2 : m.slug ≠ parentName m.fname)
    (h3 : m.todo ∉ limbNames model)
    (h4 : m2.uuid = m.uuid) :
    checkProjectIdentity model uuids label m =
      (dictSet uuids m.uuid m.fname, some (.projectIdentityError m.slug)) ∧
    dictGet (dictSet uuids m.uuid m.fname) m.uuid = some m.fname ∧
    (checkProjectIdentity model (dictSet uuids m.uuid m.fname) label m2).2 =
      some Err.nameError := by
  refine ⟨?_, dictGet_dictSet_self uuids m.uuid m.fname, ?_⟩
  · simp [checkProjectIdentity, h1, h2, h3]
  · simp [checkProjectIdentity, h4, dictGet_dictSet_self uuids m.uuid m.fname]

/-- Witness for claim C9 at a concrete project. -/
theorem claim_C9_witness :
    dictGet ([] : List (String × List String)) metaMismatch.uuid = none ∧
    metaMismatch.slug ≠ parentName metaMismatch.fname ∧
    metaMismatch.todo ∉ limbNames modelProj ∧
    (checkProjectIdentity modelProj [] ("LEAF") metaMismatch =
      (dictSet [] metaMismatch.uuid metaMismatch.fname,
        some (.projectIdentityError metaMismatch.slug)) ∧
     dictGet (dictSet ([] : List (String × List String)) metaMismatch.uuid metaMismatch.fname)
        metaMismatch.uuid = some metaMismatch.fname ∧
     (checkProjectIdentity modelProj (dictSet [] metaMismatch.uuid metaMismatch.fname)
        ("LEAF") metaMismatch).2 = some Err.nameError) :=
  ⟨by decide, by decide, by decide,
    claim_C9 modelProj [] ("LEAF") metaMismatch metaMismatch
      (by decide) (by decide) (by decide) (by decide)⟩

/-- Claim C10: `checkProjectChronology` is total only for metadata with a
non-empty logbook.  On an empty logbook the access `metadata.logbook[-1]` is
out of bounds: the function neither succeeds nor raises
`ProjectChronologyError` — the failure is Python's `IndexError`. -/
theorem claim_C10 (model : StateModel) (tree : ITree) (m : ProjectMetadata)
    (h : m.logbook = []) :
    checkProjectChronology model tree m = (tree, some Err.indexError) := by
  simp [checkProjectChronology, h, intervalLoop]

/-- Witness for claim C10 at a concrete project. -/
theorem claim_C10_witness :
    metaEmptyLog.logbook = [] ∧
    checkProjectChronology modelProj [] metaEmptyLog = ([], some Err.indexError) :=
  ⟨rfl, claim_C10 modelProj [] metaEmptyLog rfl⟩

/-- Claim C8: `checkProjectChronology` accepts a zero-length logbook
interval (`stop == start`): when the entry overlaps no previously recorded
interval the check records it and proceeds, and a well-formed project with a
zero-length interval passes the whole check.  The `stop < start` test lets
equality through, and the spec-modelled interval index records the entry. -/
theorem claim_C8 (tree : ITree) (fname : List String) (start : Nat)
    (rest : List LogEntry)
    (hq : treeQuery tree start start = []) :
    intervalLoop tree fname (.interval start start :: rest) =
      intervalLoop (treeInsert tree start start fname) fname rest ∧
    checkProjectChronology modelProj [] metaZeroLen =
      ([(5, 5, metaZeroLen.fname)], none) := by
  refine ⟨?_, rfl⟩
  simp [intervalLoop, hq]

/-- Witness for claim C8 at a concrete interval. -/
theorem claim_C8_witness :
    treeQuery [] 5 5 = [] ∧
    (intervalLoop [] metaZeroLen.fname (.interval 5 5 :: []) =
      intervalLoop (treeInsert [] 5 5 metaZeroLen.fname) metaZeroLen.fname [] ∧
     checkProjectChronology modelProj [] metaZeroLen =
      ([(5, 5, metaZeroLen.fname)], none)) :=
  ⟨rfl, claim_C8 [] metaZeroLen.fname 5 [] rfl⟩


/-- A successful lookup pinpoints a binding of the dictionary. -/
theorem dictGet_mem {κ α : Type} [DecidableEq κ] :
    ∀ (d : List (κ × α)) (k : κ) (v : α), dictGet d k = some v → (k, v) ∈ d := by
  intro d
  induction d with
  | nil => intro k v h; cases h
  | cons p rest ih =>
    intro k v h
    by_cases hk : p.1 = k
    · rw [dictGet, if_pos hk] at h
      injection h with h
      subst hk
      subst h
      exact List.mem_cons_self p rest
    · rw [dictGet, if_neg hk] at h
      exact List.mem_cons_of_mem p (ih k v h)

/-- A lookup succeeds exactly on the recorded keys. -/
theorem dictGet_isSome_iff {κ α : Type} [DecidableEq κ] :
    ∀ (d : List (κ × α)) (k : κ), (dictGet d k).isSome ↔ k ∈ d.map Prod.fst := by
  intro d
  induction d with
  | nil => intro k; simp [dictGet]
  | cons p rest ih =>
    intro k
    by_cases hk : p.1 = k
    · simp [dictGet, hk]
    · simp [dictGet, hk, ih k, Ne.symm hk]

/-- With duplicate-free keys, membership determines the lookup. -/
theorem dictGet_of_mem_nodup {κ α : Type} [DecidableEq κ] :
    ∀ (d : List (κ × α)) (k : κ) (v : α), (d.map Prod.fst).Nodup → (k, v) ∈ d →
      dictGet d k = some v := by
  intro d
  induction d with
  | nil => intro k v _ h; cases h
  | cons p rest ih =>
    intro k v hnd hm
    rcases List.mem_cons.mp hm with hm | hm
    · rw [← hm, dictGet, if_pos rfl]
    · have hk : p.1 ≠ k := by
        intro he
        have : k ∈ rest.map Prod.fst := List.mem_map_of_mem Prod.fst hm
        rw [List.map_cons, List.nodup_cons] at hnd
        exact hnd.1 (he ▸ this)
      rw [dictGet, if_neg hk]
      rw [List.map_cons, List.nodup_cons] at hnd
      exact ih k v hnd.2 hm

/-- Every binding after an update was present before or is the update. -/
theorem dictSet_mem {κ α : Type} [DecidableEq κ] :
    ∀ (d : List (κ × α)) (k : κ) (v : α) (p), p ∈ dictSet d k v → p ∈ d ∨ p = (k, v) := by
  intro d
  induction d with
  | nil => intro k v p h; simp [dictSet] at h; exact Or.inr h
  | cons q rest ih =>
    intro k v p h
    by_cases hk : q.1 = k
    · rw [dictSet, if_pos hk] at h
      rcases List.mem_cons.mp h with h | h
      · exact Or.inr h
      · exact Or.inl (List.mem_cons_of_mem q h)
    · rw [dictSet, if_neg hk] at h
      rcases List.mem_cons.mp h with h | h
      · exact Or.inl (h ▸ List.mem_cons_self q rest)
      · rcases ih k v p h with h | h
        · exact Or.inl (List.mem_cons_of_mem q h)
        · exact Or.inr h

/-- Keys after an update come from the old keys or are the updated key. -/
theorem dictSet_key_cases {κ α : Type} [DecidableEq κ] :
    ∀ (d : List (κ × α)) (k : κ) (v : α) (x), x ∈ (dictSet d k v).map Prod.fst →
      x ∈ d.map Prod.fst ∨ x = k := by
  intro d k v x hx
  rcases List.mem_map.mp hx with ⟨p, hp, hpx⟩
  rcases dictSet_mem d k v p hp with h | h
  · exact Or.inl (hpx ▸ List.mem_map_of_mem Prod.fst h)
  · right
    rw [← hpx, h]

/-- An update preserves duplicate-free keys. -/
theorem dictSet_nodup {κ α : Type} [DecidableEq κ] :
    ∀ (d : List (κ × α)) (k : κ) (v : α), (d.map Prod.fst).Nodup →
      ((dictSet d k v).map Prod.fst).Nodup := by
  intro d
  induction d with
  | nil => intro k v _; simp [dictSet]
  | cons p rest ih =>
    intro k v hnd
    rw [List.map_cons, List.nodup_cons] at hnd
    by_cases hk : p.1 = k
    · rw [dictSet, if_pos hk, List.map_cons, List.nodup_cons]
      exact ⟨hk ▸ hnd.1, hnd.2⟩
    · rw [dictSet, if_neg hk, List.map_cons, List.nodup_cons]
      refine ⟨?_, ih k v hnd.2⟩
      intro hmem
      rcases dictSet_key_cases rest k v p.1 hmem with h | h
      · exact hnd.1 h
      · exact hk h

/-- An update leaves the other keys' bindings unchanged. -/
theorem dictGet_dictSet_ne {κ α : Type} [DecidableEq κ] :
    ∀ (d : List (κ × α)) (k k2 : κ) (v : α), k2 ≠ k →
      dictGet (dictSet d k v) k2 = dictGet d k2 := by
  intro d
  induction d with
  | nil =>
    intro k k2 v hne
    simp [dictSet, dictGet, Ne.symm hne]
  | cons p rest ih =>
    intro k k2 v hne
    by_cases hk : p.1 = k
    · rw [dictSet, if_pos hk, dictGet, dictGet, if_neg (Ne.symm hne), if_neg (hk ▸ Ne.symm hne : ¬p.1 = k2)]
    · rw [dictSet, if_neg hk, dictGet, dictGet]
      by_cases hk2 : p.1 = k2
      · rw [if_pos hk2, if_pos hk2]
      · rw [if_neg hk2, if_neg hk2, ih k k2 v hne]

/-- The filtered sum over a sublist of keys is at most the bag's total. -/
theorem sumCounts_le_bagDepth (S : List String) : ∀ b : Bag, sumCounts S b ≤ bagDepth b := by
  intro b
  induction b with
  | nil => simp [sumCounts, bagDepth]
  | cons p rest ih =>
    rw [sumCounts, bagDepth, List.map_cons, List.sum_cons]
    rw [bagDepth] at ih
    by_cases h : p.1 ∈ S
    · rw [if_pos h]; omega
    · rw [if_neg h]; omega

/-- The filtered sum splits over disjoint key sets. -/
theorem sumCounts_append (S1 S2 : List String) (hdisj : ∀ a, a ∈ S1 → a ∉ S2) :
    ∀ b : Bag, sumCounts (S1 ++ S2) b = sumCounts S1 b + sumCounts S2 b := by
  intro b
  induction b with
  | nil => simp [sumCounts]
  | cons p rest ih =>
    rw [sumCounts, sumCounts, sumCounts, ih]
    by_cases h1 : p.1 ∈ S1
    · rw [if_pos (List.mem_append.mpr (Or.inl h1)), if_pos h1, if_neg (hdisj p.1 h1)]
      omega
    · by_cases h2 : p.1 ∈ S2
      · rw [if_pos (List.mem_append.mpr (Or.inr h2)), if_neg h1, if_pos h2]
        omega
      · rw [if_neg (by simp [h1, h2]), if_neg h1, if_neg h2]
        omega

/-- When the clause classes are globally duplicate-free, a satisfied
constraint forces the bag to hold at least the sum of the lower bounds. -/
theorem minDepth_le_sumCounts (cs : List Clause) (b : Bag)
    (hnd : ((cs.map (fun cl => cl.actions)).flatten).Nodup)
    (hsat : satisfies cs b = true) :
    minDepth cs ≤ sumCounts ((cs.map (fun cl => cl.actions)).flatten) b := by
  induction cs with
  | nil => simp [minDepth]
  | cons cl rest ih =>
    rw [List.map_cons, List.flatten_cons] at hnd ⊢
    rw [List.nodup_append] at hnd
    obtain ⟨hnd1, hnd2, hdisj⟩ := hnd
    obtain ⟨hlo, _, hrest⟩ := (satisfies_cons cl rest b).mp hsat
    have hIH := ih hnd2 hrest
    rw [sumCounts_append cl.actions ((rest.map (fun cl => cl.actions)).flatten)
      (fun a ha => hdisj ha) b]
    have : minDepth (cl :: rest) = cl.lo + minDepth rest := by
      simp [minDepth]
    omega

/-- A satisfied constraint with duplicate-free classes forces the bag size
to be at least the sum of the lower bounds. -/
theorem minDepth_le_bagDepth (cs : List Clause) (b : Bag)
    (hnd : ((cs.map (fun cl => cl.actions)).flatten).Nodup)
    (hsat : satisfies cs b = true) : minDepth cs ≤ bagDepth b :=
  le_trans (minDepth_le_sumCounts cs b hnd hsat)
    (sumCounts_le_bagDepth ((cs.map (fun cl => cl.actions)).flatten) b)

/-- A singleton classification pinpoints the satisfied project state. -/
theorem classifiers_singleton (C : List (String × List Clause)) (b : Bag) (s : String)
    (h : classifiers C b = [s]) : ∃ cs, (s, cs) ∈ C ∧ satisfies cs b = true := by
  unfold classifiers at h
  cases hf : C.filter (fun p => satisfies p.2 b) with
  | nil => rw [hf] at h; cases h
  | cons q rest =>
    rw [hf, List.map_cons] at h
    injection h with h1 h2
    have hq : q ∈ C.filter (fun p => satisfies p.2 b) := by
      rw [hf]; exact List.mem_cons_self q rest
    have := List.mem_filter.mp hq
    refine ⟨q.2, ?_, this.2⟩
    have : (s, q.2) = q := by
      rw [← h1]
    rw [this]
    exact (List.mem_filter.mp hq).1


/-- A successful index lookup pinpoints a binding. -/
theorem lookupIndex_mem :
    ∀ (l : List (Bag × String)) (b : Bag) (s : String),
      lookupIndex l b = some s → (b, s) ∈ l := by
  intro l
  induction l with
  | nil => intro b s h; cases h
  | cons p rest ih =>
    intro b s h
    by_cases hk : p.1 = b
    · rw [lookupIndex, if_pos hk] at h
      injection h with h
      subst hk
      subst h
      exact List.mem_cons_self p rest
    · rw [lookupIndex, if_neg hk] at h
      exact List.mem_cons_of_mem p (ih b s h)

/-- Popping a bag from the index only discards bindings. -/
theorem mem_eraseIndex :
    ∀ (l : List (Bag × String)) (b : Bag) (p), p ∈ eraseIndex l b → p ∈ l := by
  intro l
  induction l with
  | nil => intro b p h; cases h
  | cons q rest ih =>
    intro b p h
    by_cases hk : q.1 = b
    · rw [eraseIndex, if_pos hk] at h
      exact List.mem_cons_of_mem q h
    · rw [eraseIndex, if_neg hk] at h
      rcases List.mem_cons.mp h with h | h
      · exact h ▸ List.mem_cons_self q rest
      · exact List.mem_cons_of_mem q (ih b p h)

/-- `pushBag` preserves the index invariant: it only records uniquely
classified bags. -/
theorem pushBag_indexOK (C : List (String × List Clause)) (oS : List String)
    (b0 : Bag) (e0 : String) (cur : String) (st st2 : SearchState) (b : Bag)
    (hI : IndexOK C b0 e0 st) (h : pushBag C oS cur st b = .ok st2) :
    IndexOK C b0 e0 st2 := by
  unfold pushBag at h
  split at h
  · injection h with h
    exact h ▸ hI
  · split at h
    next s heq =>
      split at h
      · injection h with h
        subst h
        intro p hp
        rcases List.mem_append.mp hp with hp | hp
        · exact hI p hp
        · rcases List.mem_singleton.mp hp with rfl
          exact Or.inr heq
      · injection h with h
        exact h ▸ hI
    next heq =>
      injection h with h
      exact h ▸ hI
    next heq1 heq2 =>
      cases h

/-- A fold of state-transforming steps in the `Except` monad preserves any
property preserved by each step. -/
theorem foldlM_preserve {α : Type} (P : SearchState → Prop)
    (f : SearchState → α → Except Err SearchState)
    (hf : ∀ s a s2, P s → f s a = .ok s2 → P s2) :
    ∀ (l : List α) (s s2 : SearchState), P s → l.foldlM f s = .ok s2 → P s2 := by
  intro l
  induction l with
  | nil =>
    intro s s2 hP h
    rw [List.foldlM_nil] at h
    exact (Except.ok.inj h) ▸ hP
  | cons a rest ih =>
    intro s s2 hP h
    rw [List.foldlM_cons] at h
    cases hfa : f s a with
    | error e => rw [hfa] at h; cases h
    | ok s1 =>
      rw [hfa] at h
      exact ih s1 s2 (hf s a s1 hP hfa) h

/-- `pushInserts` preserves the index invariant. -/
theorem pushInserts_indexOK (C : List (String × List Clause)) (oS actions : List String)
    (b0 : Bag) (e0 state : String) (bag : Bag) (st st2 : SearchState)
    (hI : IndexOK C b0 e0 st) (h : pushInserts C oS actions state bag st = .ok st2) :
    IndexOK C b0 e0 st2 := by
  refine foldlM_preserve (IndexOK C b0 e0) _ ?_ actions st st2 hI h
  intro s a s2 hP hstep
  exact pushBag_indexOK C oS b0 e0 state s s2 (insertBag bag a) hP hstep

/-- `pushTransitions` preserves the index invariant. -/
theorem pushTransitions_indexOK (C : List (String × List Clause)) (oS actions : List String)
    (b0 : Bag) (e0 new_state : String) (new_bag : Bag) (st st2 : SearchState)
    (hI : IndexOK C b0 e0 st) (h : pushTransitions C oS actions new_state new_bag st = .ok st2) :
    IndexOK C b0 e0 st2 := by
  refine foldlM_preserve (IndexOK C b0 e0) _ ?_ new_bag st st2 hI h
  intro s p s2 hP hstep
  split at hstep
  · refine foldlM_preserve (IndexOK C b0 e0) _ ?_ actions s s2 hP hstep
    intro s3 a s4 hP3 hstep3
    split at hstep3
    · exact pushBag_indexOK C oS b0 e0 new_state s3 s4 (transBag new_bag p.1 a) hP3 hstep3
    · injection hstep3 with hstep3
      exact hstep3 ▸ hP3
  · injection hstep with hstep
    exact hstep ▸ hP

/-- `cascade` preserves the index invariant. -/
theorem cascade_indexOK (C : List (String × List Clause)) (oS actions : List String)
    (b0 : Bag) (e0 : String) :
    ∀ (fuel pos : Nat) (st st2 : SearchState),
      IndexOK C b0 e0 st → cascade C oS actions fuel pos st = .ok st2 →
      IndexOK C b0 e0 st2 := by
  intro fuel
  induction fuel with
  | zero => intro pos st st2 _ h; cases h
  | succ fuel ih =>
    intro pos st st2 hI h
    rw [cascade] at h
    split at h
    · injection h with h
      exact h ▸ hI
    next new_bag tail heq =>
      split at h
      · cases h
      next new_state hlook =>
        split at h
        next e heq2 => cases h
        next st1 heq2 =>
          exact ih (pos + 1) st1 st2
            (pushTransitions_indexOK C oS actions b0 e0 new_state new_bag st st1 hI heq2) h

/-- `processBag` preserves the index invariant. -/
theorem processBag_indexOK (C : List (String × List Clause)) (oS actions : List String)
    (b0 : Bag) (e0 : String) (fuel : Nat) (state : String) (bag : Bag)
    (st st2 : SearchState)
    (hI : IndexOK C b0 e0 st) (h : processBag C oS actions fuel state bag st = .ok st2) :
    IndexOK C b0 e0 st2 := by
  unfold processBag at h
  split at h
  · cases h
  next st1 heq =>
    exact cascade_indexOK C oS actions b0 e0 fuel st.fifo.length st1 st2
      (pushInserts_indexOK C oS actions b0 e0 state bag st st1 hI heq) h


/-- `satLoop` only appends to the trace. -/
theorem satLoop_extends (C : List (String × List Clause)) (oS actions : List String) :
    ∀ (fuel : Nat) (q : List (Nat × String)) (st : SearchState)
      (tr : List (String × Bag)) (r : Bool) (tr2 : List (String × Bag)),
      satLoop C oS actions fuel q st tr = .ok (r, tr2) →
      ∃ ext, tr2 = tr ++ ext := by
  intro fuel
  induction fuel with
  | zero => intro q st tr r tr2 h; cases h
  | succ fuel ih =>
    intro q st tr r tr2 h
    simp only [satLoop] at h
    split at h
    · injection h with h
      injection h with h1 h2
      exact ⟨[], by simp [h2]⟩
    next bag rest hfifo =>
      split at h
      · cases h
      next state hlook =>
        split at h
        · cases h
        next d0 s0 qrest =>
          split at h
          · split at h
            · split at h
              · injection h with h
                injection h with h1 h2
                exact ⟨[(state, bag)], by simp [h2]⟩
              · split at h
                · cases h
                next st2 heq =>
                  obtain ⟨ext, hext⟩ := ih _ _ _ _ _ h
                  exact ⟨(state, bag) :: ext, by simp [hext]⟩
            · split at h
              · cases h
              next st2 heq =>
                obtain ⟨ext, hext⟩ := ih _ _ _ _ _ h
                exact ⟨(state, bag) :: ext, by simp [hext]⟩
          · split at h
            · cases h
            · split at h
              · cases h
              next st2 heq =>
                obtain ⟨ext, hext⟩ := ih _ _ _ _ _ h
                exact ⟨(state, bag) :: ext, by simp [hext]⟩


/-- Every classification on the trace of a non-raising run is the preloaded
start yield or a bag mapped to its unique classifier. -/
theorem satLoop_classified (C : List (String × List Clause)) (oS actions : List String)
    (b0 : Bag) (e0 : String) :
    ∀ (fuel : Nat) (q : List (Nat × String)) (st : SearchState)
      (tr : List (String × Bag)) (r : Bool) (tr2 : List (String × Bag)),
      IndexOK C b0 e0 st →
      satLoop C oS actions fuel q st tr = .ok (r, tr2) →
      ∀ p ∈ tr2, p ∈ tr ∨ (p.1 = e0 ∧ p.2 = b0) ∨ classifiers C p.2 = [p.1] := by
  intro fuel
  induction fuel with
  | zero => intro q st tr r tr2 _ h; cases h
  | succ fuel ih =>
    intro q st tr r tr2 hI h
    simp only [satLoop] at h
    split at h
    · injection h with h
      injection h with h1 h2
      subst h2
      intro p hp
      exact Or.inl hp
    next bag rest hfifo =>
      split at h
      · cases h
      next state hlook =>
        have hpop : (state = e0 ∧ bag = b0) ∨ classifiers C bag = [state] := by
          rcases hI (bag, state) (lookupIndex_mem st.index bag state hlook) with h2 | h2
          · exact Or.inl ⟨h2.2, h2.1⟩
          · exact Or.inr h2
        have hI1 : IndexOK C b0 e0 ⟨rest, eraseIndex st.index bag⟩ := by
          intro p hp
          exact hI p (mem_eraseIndex st.index bag p hp)
        have hnew : ∀ p ∈ tr ++ [(state, bag)],
            p ∈ tr ∨ (p.1 = e0 ∧ p.2 = b0) ∨ classifiers C p.2 = [p.1] := by
          intro p hp
          rcases List.mem_append.mp hp with hp | hp
          · exact Or.inl hp
          · rcases List.mem_singleton.mp hp with rfl
            rcases hpop with h2 | h2
            · exact Or.inr (Or.inl ⟨h2.1, h2.2⟩)
            · exact Or.inr (Or.inr h2)
        split at h
        · cases h
        next d0 s0 qrest =>
          split at h
          · split at h
            · split at h
              · injection h with h
                injection h with h1 h2
                subst h2
                exact hnew
              · split at h
                · cases h
                next st2 heq =>
                  have hI2 := processBag_indexOK C oS actions b0 e0 fuel state bag _ st2 hI1 heq
                  intro p hp
                  rcases ih _ _ _ _ _ hI2 h p hp with hp2 | hp2
                  · exact hnew p hp2
                  · exact Or.inr hp2
            · split at h
              · cases h
              next st2 heq =>
                have hI2 := processBag_indexOK C oS actions b0 e0 fuel state bag _ st2 hI1 heq
                intro p hp
                rcases ih _ _ _ _ _ hI2 h p hp with hp2 | hp2
                · exact hnew p hp2
                · exact Or.inr hp2
          · split at h
            · cases h
            · split at h
              · cases h
              next st2 heq =>
                have hI2 := processBag_indexOK C oS actions b0 e0 fuel state bag _ st2 hI1 heq
                intro p hp
                rcases ih _ _ _ _ _ hI2 h p hp with hp2 | hp2
                · exact hnew p hp2
                · exact Or.inr hp2


/-- Removing the first occurrence yields a sublist. -/
theorem removeFirst_sublist :
    ∀ (l : List (Nat × String)) (y : Nat × String), List.Sublist (removeFirst l y) l := by
  intro l y
  induction l with
  | nil => exact List.Sublist.refl []
  | cons x rest ih =>
    by_cases hx : x = y
    · rw [removeFirst, if_pos hx]
      exact List.sublist_cons_self x rest
    · rw [removeFirst, if_neg hx]
      exact List.Sublist.cons₂ x ih

/-- Membership survives removal of a different element. -/
theorem mem_removeFirst_of_ne :
    ∀ (l : List (Nat × String)) (x y : Nat × String), x ∈ l → x ≠ y →
      x ∈ removeFirst l y := by
  intro l x y
  induction l with
  | nil => intro h _; cases h
  | cons z rest ih =>
    intro hm hne
    by_cases hz : z = y
    · rw [removeFirst, if_pos hz]
      rcases List.mem_cons.mp hm with hm | hm
      · exact absurd (hm ▸ hz) hne
      · exact hm
    · rw [removeFirst, if_neg hz]
      rcases List.mem_cons.mp hm with hm | hm
      · exact hm ▸ List.mem_cons_self z (removeFirst rest y)
      · exact List.mem_cons_of_mem z (ih hm hne)

/-- A list emptied by one removal was that singleton. -/
theorem removeFirst_nil_eq :
    ∀ (l : List (Nat × String)) (y : Nat × String), y ∈ l → removeFirst l y = [] →
      l = [y] := by
  intro l y
  induction l with
  | nil => intro h _; cases h
  | cons z rest ih =>
    intro hm hnil
    by_cases hz : z = y
    · rw [removeFirst, if_pos hz] at hnil
      rw [hz, hnil]
    · rw [removeFirst, if_neg hz] at hnil
      cases hnil

/-- When `satLoop` returns `true`, every pair of the sorted todo queue was
removed at a yield of its state at a bag of exactly its recorded depth, and
every yield recorded before that one stays at or below that depth. -/
theorem satLoop_removal (C : List (String × List Clause)) (oS actions : List String) :
    ∀ (fuel : Nat) (q : List (Nat × String)) (st : SearchState)
      (tr tr2 : List (String × Bag)),
      List.Pairwise (fun x y : Nat × String => x.1 ≤ y.1) q →
      satLoop C oS actions fuel q st tr = .ok (true, tr2) →
      ∀ d s, (d, s) ∈ q →
        ∃ pre b post, tr2 = tr ++ pre ++ (s, b) :: post ∧ bagDepth b = d ∧
          ∀ p ∈ pre, bagDepth p.2 ≤ d := by
  intro fuel
  induction fuel with
  | zero => intro q st tr tr2 _ h; cases h
  | succ fuel ih =>
    intro q st tr tr2 hq h
    simp only [satLoop] at h
    split at h
    · injection h with h
      injection h with h1 h2
      cases h1
    next bag rest hfifo =>
      split at h
      · cases h
      next state hlook =>
        split at h
        · cases h
        next d0 s0 qrest =>
          have hdle : ∀ d s, (d, s) ∈ (d0, s0) :: qrest → d0 ≤ d := by
            intro d s hm
            rcases List.mem_cons.mp hm with hm | hm
            · have := congrArg Prod.fst hm
              simp at this
              omega
            · exact (List.pairwise_cons.mp hq).1 (d, s) hm
          split at h
          next hdep =>
            split at h
            next hmem =>
              split at h
              next hq2 =>
                injection h with h
                injection h with h1 h2
                subst h2
                intro d s hm
                have hqeq := removeFirst_nil_eq ((d0, s0) :: qrest) (bagDepth bag, state) hmem hq2
                rw [hqeq] at hm
                have hx := List.mem_singleton.mp hm
                have hd : d = bagDepth bag := congrArg Prod.fst hx
                have hs : s = state := congrArg Prod.snd hx
                subst hd
                subst hs
                exact ⟨[], bag, [], by simp, rfl, by simp⟩
              next hq2 =>
                split at h
                · cases h
                next st2 heq =>
                  intro d s hm
                  by_cases hx : (d, s) = (bagDepth bag, state)
                  · obtain ⟨ext, hext⟩ := satLoop_extends C oS actions fuel _ _ _ _ _ h
                    have hd : d = bagDepth bag := congrArg Prod.fst hx
                    have hs : s = state := congrArg Prod.snd hx
                    subst hd
                    subst hs
                    exact ⟨[], bag, ext, by simp [hext], rfl, by simp⟩
                  · have hm2 := mem_removeFirst_of_ne ((d0, s0) :: qrest) (d, s)
                      (bagDepth bag, state) hm hx
                    have hq3 := List.Pairwise.sublist (removeFirst_sublist
                      ((d0, s0) :: qrest) (bagDepth bag, state)) hq
                    obtain ⟨pre, b, post, hshape, hdb, hpre⟩ := ih _ _ _ _ hq3 h d s hm2
                    refine ⟨(state, bag) :: pre, b, post, by simp [hshape], hdb, ?_⟩
                    intro p hp
                    rcases List.mem_cons.mp hp with hp | hp
                    · rw [hp]
                      have := hdle d s hm
                      simp
                      omega
                    · exact hpre p hp
            next hmem =>
              split at h
              · cases h
              next st2 heq =>
                intro d s hm
                obtain ⟨pre, b, post, hshape, hdb, hpre⟩ := ih _ _ _ _ hq h d s hm
                refine ⟨(state, bag) :: pre, b, post, by simp [hshape], hdb, ?_⟩
                intro p hp
                rcases List.mem_cons.mp hp with hp | hp
                · rw [hp]
                  have := hdle d s hm
                  simp
                  omega
                · exact hpre p hp
          next hdep =>
            split at h
            · cases h
            next hgt =>
              split at h
              · cases h
              next st2 heq =>
                intro d s hm
                obtain ⟨pre, b, post, hshape, hdb, hpre⟩ := ih _ _ _ _ hq h d s hm
                refine ⟨(state, bag) :: pre, b, post, by simp [hshape], hdb, ?_⟩
                intro p hp
                rcases List.mem_cons.mp hp with hp | hp
                · rw [hp]
                  have := hdle d s hm
                  simp
                  omega
                · exact hpre p hp


/-- A section accepted by the partition loop is duplicate free and disjoint
from the previously recorded states. -/
theorem partitionLoop_nodup :
    ∀ (l seen out : List String), partitionLoop seen l = .ok out →
      l.Nodup ∧ ∀ s ∈ l, s ∉ seen := by
  intro l
  induction l with
  | nil => intro seen out _; exact ⟨List.nodup_nil, by simp⟩
  | cons s rest ih =>
    intro seen out h
    rw [partitionLoop] at h
    split at h
    · cases h
    next hs =>
      obtain ⟨hnd, hdisj⟩ := ih (seen ++ [s]) out h
      refine ⟨List.nodup_cons.mpr ⟨?_, hnd⟩, ?_⟩
      · intro hmem
        exact hdisj s hmem (by simp)
      · intro x hx
        rcases List.mem_cons.mp hx with hx | hx
        · exact hx ▸ hs
        · intro hxs
          exact hdisj x hx (by simp [hxs])

/-- The partition loop returns the recorded states extended by the section. -/
theorem partitionLoop_out :
    ∀ (l seen out : List String), partitionLoop seen l = .ok out →
      out = seen ++ l := by
  intro l
  induction l with
  | nil =>
    intro seen out h
    rw [partitionLoop] at h
    injection h with h
    simp [h]
  | cons s rest ih =>
    intro seen out h
    rw [partitionLoop] at h
    split at h
    · cases h
    · have := ih (seen ++ [s]) out h
      simp [this]

/-- The facts about a model that passes the partition check which the
satisfaction proofs rely on: duplicate-free action names, a duplicate-free
empty section, and empty states disjoint from the open and shut sections. -/
theorem checkModelPartition_facts (model : StateModel)
    (h : checkModelPartition model = .ok ()) :
    (actionNames model).Nodup ∧
    (model.empty_states.map Prod.fst).Nodup ∧
    (∀ s ∈ model.open_states.map Prod.fst, s ∉ model.empty_states.map Prod.fst) ∧
    (∀ s ∈ model.shut_states.map Prod.fst, s ∉ model.empty_states.map Prod.fst) := by
  unfold checkModelPartition at h
  split at h
  · cases h
  next seen1 h1 =>
    split at h
    · cases h
    next seen2 h2 =>
      split at h
      · cases h
      next seen3 h3 =>
        split at h
        · cases h
        next seen4 h4 =>
          split at h
          · cases h
          next seen5 h5 =>
            have f1 := partitionLoop_nodup _ _ _ h1
            have f3 := partitionLoop_nodup _ _ _ h3
            have f4 := partitionLoop_nodup _ _ _ h4
            have f5 := partitionLoop_nodup _ _ _ h5
            have o3 := partitionLoop_out _ _ _ h3
            have o4 := partitionLoop_out _ _ _ h4
            refine ⟨f1.1, f3.1, ?_, ?_⟩
            · intro s hs hmem
              refine f4.2 s hs ?_
              rw [o3]
              simp [hmem]
            · intro s hs hmem
              refine f5.2 s hs ?_
              rw [o4, o3]
              simp [hmem]

/-- Updating a key makes its lookup defined and leaves the others as before. -/
theorem dictGet_dictSet_isSome {κ α : Type} [DecidableEq κ]
    (d : List (κ × α)) (k k2 : κ) (v : α) :
    (dictGet (dictSet d k v) k2).isSome ↔ (dictGet d k2).isSome ∨ k2 = k := by
  by_cases hk : k2 = k
  · subst hk
    simp [dictGet_dictSet_self]
  · rw [dictGet_dictSet_ne d k k2 v hk]
    simp [hk]

/-- A key resolves after the empty-state pass exactly when it was already
recorded or is an empty state. -/
theorem compileEmpty_isSome (zc : List Clause) :
    ∀ (l : List (String × EmptiedState)) (acc : List (String × List Clause)) (k : String),
      (dictGet (compileEmpty zc l acc) k).isSome ↔
        (dictGet acc k).isSome ∨ k ∈ l.map Prod.fst := by
  intro l
  induction l with
  | nil => intro acc k; simp [compileEmpty]
  | cons p rest ih =>
    intro acc k
    rw [compileEmpty, ih, dictGet_dictSet_isSome]
    simp only [List.map_cons, List.mem_cons]
    exact or_assoc

/-- The empty-state pass binds every empty state to the zero clauses. -/
theorem compileEmpty_get_of_acc (zc : List Clause) :
    ∀ (l : List (String × EmptiedState)) (acc : List (String × List Clause)) (k : String),
      dictGet acc k = some zc → dictGet (compileEmpty zc l acc) k = some zc := by
  intro l
  induction l with
  | nil => intro acc k h; exact h
  | cons p rest ih =>
    intro acc k h
    rw [compileEmpty]
    refine ih (dictSet acc p.1 zc) k ?_
    by_cases hk : k = p.1
    · rw [hk]
      exact dictGet_dictSet_self acc p.1 zc
    · rw [dictGet_dictSet_ne acc p.1 k zc hk]
      exact h

/-- The empty-state pass binds every listed empty state to the zero clauses. -/
theorem compileEmpty_get_mem (zc : List Clause) :
    ∀ (l : List (String × EmptiedState)) (acc : List (String × List Clause)) (k : String),
      k ∈ l.map Prod.fst → dictGet (compileEmpty zc l acc) k = some zc := by
  intro l
  induction l with
  | nil => intro acc k h; cases h
  | cons p rest ih =>
    intro acc k h
    rcases List.mem_cons.mp h with h | h
    · rw [compileEmpty]
      refine compileEmpty_get_of_acc zc rest (dictSet acc p.1 zc) k ?_
      rw [h]
      exact dictGet_dictSet_self acc p.1 zc
    · rw [compileEmpty]
      exact ih (dictSet acc p.1 zc) k h

/-- The empty-state pass preserves duplicate-free keys. -/
theorem compileEmpty_nodup (zc : List Clause) :
    ∀ (l : List (String × EmptiedState)) (acc : List (String × List Clause)),
      (acc.map Prod.fst).Nodup → ((compileEmpty zc l acc).map Prod.fst).Nodup := by
  intro l
  induction l with
  | nil => intro acc h; exact h
  | cons p rest ih =>
    intro acc h
    rw [compileEmpty]
    exact ih (dictSet acc p.1 zc) (dictSet_nodup acc p.1 zc h)

/-- Every binding after the empty-state pass was present or carries the zero
clauses. -/
theorem compileEmpty_mem (zc : List Clause) :
    ∀ (l : List (String × EmptiedState)) (acc : List (String × List Clause)) (p),
      p ∈ compileEmpty zc l acc → p ∈ acc ∨ p.2 = zc := by
  intro l
  induction l with
  | nil => intro acc p h; exact Or.inl h
  | cons q rest ih =>
    intro acc p h
    rw [compileEmpty] at h
    rcases ih (dictSet acc q.1 zc) p h with h | h
    · rcases dictSet_mem acc q.1 zc p h with h | h
      · exact Or.inl h
      · right
        rw [h]
    · exact Or.inr h


/-- A key resolves after the open- and shut-state pass exactly when it
resolved before or names one of the compiled states. -/
theorem compileOpenShut_isSome (actions : List String) :
    ∀ (l : List (String × ConstrainedState)) (acc out : List (String × List Clause))
      (k : String), compileOpenShut actions l acc = .ok out →
      ((dictGet out k).isSome ↔ (dictGet acc k).isSome ∨ k ∈ l.map Prod.fst) := by
  intro l
  induction l with
  | nil =>
    intro acc out k h
    rw [compileOpenShut] at h
    injection h with h
    simp [h]
  | cons p rest ih =>
    intro acc out k h
    rw [compileOpenShut] at h
    split at h
    next cs heq =>
      rw [ih (dictSet acc p.1 cs) out k h, dictGet_dictSet_isSome]
      simp only [List.map_cons, List.mem_cons]
      exact or_assoc
    · cases h

/-- The open- and shut-state pass preserves duplicate-free keys. -/
theorem compileOpenShut_nodup (actions : List String) :
    ∀ (l : List (String × ConstrainedState)) (acc out : List (String × List Clause)),
      (acc.map Prod.fst).Nodup → compileOpenShut actions l acc = .ok out →
      (out.map Prod.fst).Nodup := by
  intro l
  induction l with
  | nil =>
    intro acc out hnd h
    rw [compileOpenShut] at h
    injection h with h
    exact h ▸ hnd
  | cons p rest ih =>
    intro acc out hnd h
    rw [compileOpenShut] at h
    split at h
    next cs heq =>
      exact ih (dictSet acc p.1 cs) out (dictSet_nodup acc p.1 cs hnd) h
    · cases h

/-- Every binding after the open- and shut-state pass was present or is the
successful compilation of one of the listed states. -/
theorem compileOpenShut_mem (actions : List String) :
    ∀ (l : List (String × ConstrainedState)) (acc out : List (String × List Clause)),
      compileOpenShut actions l acc = .ok out →
      ∀ p ∈ out, p ∈ acc ∨ ∃ q ∈ l, compileState actions q.2.constraints = .ok p.2 := by
  intro l
  induction l with
  | nil =>
    intro acc out h p hp
    rw [compileOpenShut] at h
    injection h with h
    exact Or.inl (h ▸ hp)
  | cons q rest ih =>
    intro acc out h p hp
    rw [compileOpenShut] at h
    split at h
    next cs heq =>
      rcases ih (dictSet acc q.1 cs) out h p hp with h2 | h2
      · rcases dictSet_mem acc q.1 cs p h2 with h3 | h3
        · exact Or.inl h3
        · refine Or.inr ⟨q, List.mem_cons_self q rest, ?_⟩
          rw [h3]
          exact heq
      · obtain ⟨q2, hq2, hc⟩ := h2
        exact Or.inr ⟨q2, List.mem_cons_of_mem q hq2, hc⟩
    · cases h

/-- The open- and shut-state pass leaves the bindings of other keys
unchanged. -/
theorem compileOpenShut_get_notmem (actions : List String) :
    ∀ (l : List (String × ConstrainedState)) (acc out : List (String × List Clause))
      (k : String), k ∉ l.map Prod.fst → compileOpenShut actions l acc = .ok out →
      dictGet out k = dictGet acc k := by
  intro l
  induction l with
  | nil =>
    intro acc out k _ h
    rw [compileOpenShut] at h
    injection h with h
    rw [h]
  | cons p rest ih =>
    intro acc out k hk h
    rw [compileOpenShut] at h
    split at h
    next cs heq =>
      have hk1 : k ≠ p.1 := by
        intro he
        exact hk (by simp [he])
      have hk2 : k ∉ rest.map Prod.fst := by
        intro he
        exact hk (by simp [he])
      rw [ih (dictSet acc p.1 cs) out k hk2 h]
      exact dictGet_dictSet_ne acc p.1 k cs hk1
    · cases h

/-- The compiled dictionary has duplicate-free keys. -/
theorem compileConstraints_nodup (model : StateModel) (C : List (String × List Clause))
    (h : compileConstraints model = .ok C) : (C.map Prod.fst).Nodup := by
  unfold compileConstraints at h
  exact compileOpenShut_nodup (actionNames model) _ _ C
    (compileEmpty_nodup (zeroClauses (actionNames model)) model.empty_states [] (by simp)) h

/-- The compiled dictionary covers exactly the empty, open, and shut
states. -/
theorem compileConstraints_isSome (model : StateModel) (C : List (String × List Clause))
    (h : compileConstraints model = .ok C) (s : String) :
    (dictGet C s).isSome ↔
      s ∈ model.empty_states.map Prod.fst ++ model.open_states.map Prod.fst ++
        model.shut_states.map Prod.fst := by
  unfold compileConstraints at h
  rw [compileOpenShut_isSome (actionNames model) _ _ C s h,
    compileEmpty_isSome (zeroClauses (actionNames model)) model.empty_states [] s]
  simp [dictGet, or_assoc]

/-- Every compiled binding carries the zero clauses of an empty state or a
successful per-state compilation. -/
theorem compileConstraints_mem (model : StateModel) (C : List (String × List Clause))
    (h : compileConstraints model = .ok C) :
    ∀ p ∈ C, p.2 = zeroClauses (actionNames model) ∨
      ∃ q ∈ model.open_states ++ model.shut_states,
        compileState (actionNames model) q.2.constraints = .ok p.2 := by
  unfold compileConstraints at h
  intro p hp
  rcases compileOpenShut_mem (actionNames model) _ _ C h p hp with h2 | h2
  · rcases compileEmpty_mem (zeroClauses (actionNames model)) model.empty_states [] p h2 with h3 | h3
    · cases h3
    · exact Or.inl h3
  · exact Or.inr h2

/-- In a model that passes the partition check, the first empty state stays
bound to the zero clauses in the compiled dictionary. -/
theorem compileConstraints_empty_get (model : StateModel) (C : List (String × List Clause))
    (hcomp : compileConstraints model = .ok C) (e0 : String)
    (hmem : e0 ∈ model.empty_states.map Prod.fst)
    (hopen : e0 ∉ model.open_states.map Prod.fst)
    (hshut : e0 ∉ model.shut_states.map Prod.fst) :
    dictGet C e0 = some (zeroClauses (actionNames model)) := by
  unfold compileConstraints at hcomp
  have hk : e0 ∉ (model.open_states ++ model.shut_states).map Prod.fst := by
    rw [List.map_append]
    intro hmem2
    rcases List.mem_append.mp hmem2 with h | h
    · exact hopen h
    · exact hshut h
  rw [compileOpenShut_get_notmem (actionNames model) _ _ C e0 hk hcomp]
  exact compileEmpty_get_mem (zeroClauses (actionNames model)) model.empty_states [] e0 hmem


/-- The classes produced by the first compilation pass are the non-cross-
referencing action states, each in its own singleton clause. -/
theorem compileBase_flat (cons : List (String × ConstraintEntry)) :
    ∀ (as : List String) (cs : List Clause), compileBase cons as = .ok cs →
      clauseActions cs = as.filter (fun a => !xrefFlag cons a) := by
  intro as
  induction as with
  | nil =>
    intro cs h
    rw [compileBase] at h
    injection h with h
    simp [← h, clauseActions]
  | cons a rest ih =>
    intro cs h
    rw [compileBase] at h
    split at h
    · cases h
    next n heq =>
      split at h
      next cs2 heq2 =>
        injection h with h
        rw [← h, clauseActions, List.map_cons, List.flatten_cons, List.filter_cons]
        have : xrefFlag cons a = false := by
          rw [xrefFlag, heq]
        rw [this]
        simp only [Bool.not_false, if_pos]
        rw [← clauseActions, ih cs2 heq2]
        rfl
      · cases h
    next n heq =>
      split at h
      next cs2 heq2 =>
        injection h with h
        rw [← h, clauseActions, List.map_cons, List.flatten_cons, List.filter_cons]
        have : xrefFlag cons a = false := by
          rw [xrefFlag, heq]
        rw [this]
        simp only [Bool.not_false, if_pos]
        rw [← clauseActions, ih cs2 heq2]
        rfl
      · cases h
    next n m heq =>
      split at h
      next cs2 heq2 =>
        injection h with h
        rw [← h, clauseActions, List.map_cons, List.flatten_cons, List.filter_cons]
        have : xrefFlag cons a = false := by
          rw [xrefFlag, heq]
        rw [this]
        simp only [Bool.not_false, if_pos]
        rw [← clauseActions, ih cs2 heq2]
        rfl
      · cases h
    next t heq =>
      rw [ih cs h, List.filter_cons]
      have : xrefFlag cons a = true := by
        rw [xrefFlag, heq]
      rw [this]
      simp

/-- Merging a cross reference leaves the classes unchanged or adds exactly
the merged action state. -/
theorem addXref_flat (c a : String) :
    ∀ cs : List Clause,
      clauseActions (addXref c a cs) = clauseActions cs ∨
      (clauseActions (addXref c a cs)).Perm (a :: clauseActions cs) := by
  intro cs
  induction cs with
  | nil => exact Or.inl rfl
  | cons cl rest ih =>
    by_cases hc : cl.actions.head? = some c
    · right
      rw [addXref, if_pos hc]
      show ((cl.actions ++ [a]) ++ clauseActions rest).Perm (a :: (cl.actions ++ clauseActions rest))
      have h1 : (cl.actions ++ [a]) ++ clauseActions rest = cl.actions ++ (a :: clauseActions rest) := by
        simp
      rw [h1]
      exact List.perm_middle
    · rw [addXref, if_neg hc]
      rcases ih with h | h
      · left
        show cl.actions ++ clauseActions (addXref c a rest) = cl.actions ++ clauseActions rest
        rw [h]
      · right
        show (cl.actions ++ clauseActions (addXref c a rest)).Perm (a :: (cl.actions ++ clauseActions rest))
        refine ((h.append_left cl.actions).trans ?_)
        exact List.perm_middle.symm.trans (by exact List.Perm.refl _) |>.symm

/-- The cross-reference pass keeps the classes duplicate free when the
pending cross-referencing states are fresh. -/
theorem compileXrefs_nodup (cons : List (String × ConstraintEntry)) :
    ∀ (rem : List String) (acc out : List Clause),
      (clauseActions acc ++ rem.filter (fun a => xrefFlag cons a)).Nodup →
      compileXrefs cons acc rem = .ok out →
      (clauseActions out).Nodup := by
  intro rem
  induction rem with
  | nil =>
    intro acc out hnd h
    rw [compileXrefs] at h
    injection h with h
    rw [← h]
    simp at hnd
    exact hnd
  | cons a rest ih =>
    intro acc out hnd h
    rw [compileXrefs] at h
    split at h
    · cases h
    next t heq =>
      have hflag : xrefFlag cons a = true := by
        rw [xrefFlag, heq]
      rw [List.filter_cons, hflag, if_pos rfl] at hnd
      refine ih (addXref t a acc) out ?_ h
      rcases addXref_flat t a acc with h2 | h2
      · rw [h2]
        refine List.Nodup.sublist ?_ hnd
        exact List.Sublist.append_left (List.sublist_cons_self a _) (clauseActions acc)
      · have hperm : (clauseActions (addXref t a acc) ++
            rest.filter (fun a => xrefFlag cons a)).Perm
            (clauseActions acc ++ a :: rest.filter (fun a => xrefFlag cons a)) := by
          refine (h2.append_right _).trans ?_
          exact List.perm_middle.symm
        exact hperm.nodup_iff.mpr hnd
    next e hne heq =>
      have hflag : xrefFlag cons a = false := by
        rw [xrefFlag, heq]
        cases e with
        | exact n => rfl
        | atLeast n => rfl
        | range n m => rfl
        | xref t => exact absurd rfl (hne t)
      rw [List.filter_cons] at hnd
      simp only [hflag, Bool.false_eq_true, if_false] at hnd
      exact ih acc out hnd h

/-- The compiled clauses of a constrained state have globally duplicate-free
classes whenever the action states are duplicate free. -/
theorem compileState_flatNodup (as : List String) (cons : List (String × ConstraintEntry))
    (cs : List Clause) (hnd : as.Nodup) (h : compileState as cons = .ok cs) :
    (clauseActions cs).Nodup := by
  unfold compileState at h
  split at h
  next base heq =>
    refine compileXrefs_nodup cons as base cs ?_ h
    rw [compileBase_flat cons as base heq]
    have hperm : (as.filter (fun a => !xrefFlag cons a) ++
        as.filter (fun a => xrefFlag cons a)).Perm as := by
      refine (List.perm_append_comm).trans ?_
      have := List.filter_append_perm (fun a => xrefFlag cons a) as
      exact this
    exact hperm.nodup_iff.mpr hnd
  · cases h

/-- The zero clauses of the empty states partition the action states into
singletons. -/
theorem zeroClauses_flat (as : List String) : clauseActions (zeroClauses as) = as := by
  induction as with
  | nil => rfl
  | cons a rest ih =>
    rw [zeroClauses, clauseActions] at ih ⊢
    simp only [List.map_cons, List.map_map, List.flatten_cons]
    simp only [List.map_map] at ih
    rw [ih]
    rfl

/-- Every compiled constraint has globally duplicate-free classes whenever
the action states are duplicate free. -/
theorem compileConstraints_flatNodup (model : StateModel) (C : List (String × List Clause))
    (hcomp : compileConstraints model = .ok C) (hnd : (actionNames model).Nodup) :
    ∀ p ∈ C, (clauseActions p.2).Nodup := by
  intro p hp
  rcases compileConstraints_mem model C hcomp p hp with h | h
  · rw [h, zeroClauses_flat]
    exact hnd
  · obtain ⟨q, _, hc⟩ := h
    exact compileState_flatNodup (actionNames model) q.2.constraints p.2 hnd hc


/-- A tuple comparing at most another has at most its depth. -/
theorem pairLe_true_le (x y : Nat × String) (h : pairLe x y = true) : x.1 ≤ y.1 := by
  rw [pairLe] at h
  by_cases h1 : x.1 < y.1
  · omega
  · rw [if_neg h1] at h
    by_cases h2 : y.1 < x.1
    · rw [if_pos h2] at h
      cases h
    · omega

/-- A tuple not comparing at most another has at least its depth. -/
theorem pairLe_false_ge (x y : Nat × String) (h : pairLe x y = false) : y.1 ≤ x.1 := by
  rw [pairLe] at h
  by_cases h1 : x.1 < y.1
  · rw [if_pos h1] at h
    cases h
  · omega

/-- Ordered insertion preserves sortedness of the depths. -/
theorem pairwise_fst_orderedInsert (x : Nat × String) :
    ∀ l : List (Nat × String),
      List.Pairwise (fun p q : Nat × String => p.1 ≤ q.1) l →
      List.Pairwise (fun p q : Nat × String => p.1 ≤ q.1)
        (List.orderedInsert (fun a b => pairLe a b = true) x l) := by
  intro l
  induction l with
  | nil =>
    intro _
    simp [List.orderedInsert]
  | cons y rest ih =>
    intro hl
    rw [List.orderedInsert]
    obtain ⟨hy, hrest⟩ := List.pairwise_cons.mp hl
    split
    next hr =>
      refine List.pairwise_cons.mpr ⟨?_, hl⟩
      intro z hz
      have hxy := pairLe_true_le x y hr
      rcases List.mem_cons.mp hz with hz | hz
      · rw [hz]
        exact hxy
      · exact le_trans hxy (hy z hz)
    next hr =>
      have hyx := pairLe_false_ge x y (Bool.of_not_eq_true hr)
      refine List.pairwise_cons.mpr ⟨?_, ih hrest⟩
      intro z hz
      rcases (List.mem_orderedInsert _).mp hz with hz | hz
      · rw [hz]
        exact hyx
      · exact hy z hz

/-- The sorted todo queue is sorted by depth. -/
theorem sortPairs_pairwise_fst (l : List (Nat × String)) :
    List.Pairwise (fun p q : Nat × String => p.1 ≤ q.1) (sortPairs l) := by
  rw [sortPairs]
  induction l with
  | nil => exact List.Pairwise.nil
  | cons x rest ih =>
    rw [List.insertionSort]
    exact pairwise_fst_orderedInsert x _ ih

/-- Sorting does not change the queue's entries. -/
theorem mem_sortPairs (l : List (Nat × String)) (x : Nat × String) :
    x ∈ sortPairs l ↔ x ∈ l := by
  exact (List.perm_insertionSort _ l).mem_iff

/-- The zero clauses impose no lower bounds. -/
theorem minDepth_zeroClauses (as : List String) : minDepth (zeroClauses as) = 0 := by
  induction as with
  | nil => rfl
  | cons a rest ih =>
    have h : minDepth (zeroClauses (a :: rest)) = 0 + minDepth (zeroClauses rest) := rfl
    rw [h, ih]


/-- Claim C4, amended: during a run of `checkModelSatisfaction` that returns
without raising, every yielded bag other than the all-zero start bag is
classified by exactly one project state (the claim's bound of 0 or 1 holds
for every bag the search yields); the counterexample shows the bound does
not extend to every bag reachable under the search rules. -/
theorem claim_C4 (model : StateModel) (fuel : Nat) (C : List (String × List Clause))
    (r : Bool) (tr : List (String × Bag))
    (hcomp : compileConstraints model = .ok C)
    (hrun : checkModelSatisfactionT fuel model = .ok (r, tr)) :
    ∀ p ∈ tr, p.2 = startBag model ∨ classifiers C p.2 = [p.1] := by
  unfold checkModelSatisfactionT at hrun
  rw [hcomp] at hrun
  simp only at hrun
  split at hrun
  · cases hrun
  next e0 d0 tail heq =>
    have hI : IndexOK C ((sortStrings (actionNames model)).map (fun a => (a, 0))) e0
        ⟨[(sortStrings (actionNames model)).map (fun a => (a, 0))],
         [((sortStrings (actionNames model)).map (fun a => (a, 0)), e0)]⟩ := by
      intro p hp
      rcases List.mem_singleton.mp hp with rfl
      exact Or.inl ⟨rfl, rfl⟩
    have hcl := satLoop_classified C _ _ _ e0 fuel _ _ [] r tr hI hrun
    intro p hp
    rcases hcl p hp with h | h | h
    · cases h
    · left
      rw [startBag]
      exact h.2
    · right
      exact h


/-- Claim C3, amended: for every state model that passes the partition check
and on which `checkModelSatisfaction` returns `True` (the todo queue
emptied), every project state of the empty, open, and shut sections is
yielded at least once, and its first yield occurs at bag size exactly the
sum of the lower bounds of its compiled clauses; the counterexample shows
that merely returning without raising is not enough. -/
theorem claim_C3 (model : StateModel) (fuel : Nat) (C : List (String × List Clause))
    (tr : List (String × Bag))
    (hpart : checkModelPartition model = .ok ())
    (hcomp : compileConstraints model = .ok C)
    (hrun : checkModelSatisfactionT fuel model = .ok (true, tr)) :
    ∀ s ∈ model.empty_states.map Prod.fst ++ model.open_states.map Prod.fst ++
        model.shut_states.map Prod.fst,
      ∃ cs b, dictGet C s = some cs ∧
        (tr.filter (fun p => p.1 == s)).head? = some (s, b) ∧
        bagDepth b = minDepth cs := by
  obtain ⟨hndAct, hndEmpty, hOpenEmpty, hShutEmpty⟩ := checkModelPartition_facts model hpart
  unfold checkModelSatisfactionT at hrun
  rw [hcomp] at hrun
  simp only at hrun
  split at hrun
  · cases hrun
  next e0 d0 tail heq =>
    have hI : IndexOK C ((sortStrings (actionNames model)).map (fun a => (a, 0))) e0
        ⟨[(sortStrings (actionNames model)).map (fun a => (a, 0))],
         [((sortStrings (actionNames model)).map (fun a => (a, 0)), e0)]⟩ := by
      intro p hp
      rcases List.mem_singleton.mp hp with rfl
      exact Or.inl ⟨rfl, rfl⟩
    have hcl := satLoop_classified C _ _ _ e0 fuel _ _ [] true tr hI hrun
    have hqsorted := sortPairs_pairwise_fst (C.map (fun p => (minDepth p.2, p.1)))
    have hrem := satLoop_removal C _ _ fuel _ _ [] tr hqsorted hrun
    have he0mem : e0 ∈ model.empty_states.map Prod.fst := by
      rw [heq]
      simp
    have he0get : dictGet C e0 = some (zeroClauses (actionNames model)) := by
      refine compileConstraints_empty_get model C hcomp e0 he0mem ?_ ?_
      · intro hmem
        exact hOpenEmpty e0 hmem he0mem
      · intro hmem
        exact hShutEmpty e0 hmem he0mem
    have hCnodup := compileConstraints_nodup model C hcomp
    intro s hs
    have hsome : (dictGet C s).isSome := (compileConstraints_isSome model C hcomp s).mpr hs
    obtain ⟨cs, hcs⟩ := Option.isSome_iff_exists.mp hsome
    have hmemC : (s, cs) ∈ C := dictGet_mem C s cs hcs
    have hqmem : (minDepth cs, s) ∈ sortPairs (C.map (fun p => (minDepth p.2, p.1))) := by
      rw [mem_sortPairs]
      exact List.mem_map.mpr ⟨(s, cs), hmemC, rfl⟩
    obtain ⟨pre, b, post, hshape, hdb, hpre⟩ := hrem (minDepth cs) s hqmem
    have hlower : ∀ p ∈ tr, p.1 = s → minDepth cs ≤ bagDepth p.2 := by
      intro p hp hps
      rcases hcl p hp with h | h | h
      · cases h
      · have hse : s = e0 := by
          rw [← hps, h.1]
        have hzc : cs = zeroClauses (actionNames model) := by
          have h2 := hcs
          rw [hse, he0get] at h2
          exact (Option.some.inj h2).symm
        rw [hzc, minDepth_zeroClauses]
        omega
      · rw [hps] at h
        obtain ⟨cs2, hmem2, hsat2⟩ := classifiers_singleton C p.2 s h
        have h2 : dictGet C s = some cs2 := dictGet_of_mem_nodup C s cs2 hCnodup hmem2
        have hcseq : cs2 = cs := by
          rw [hcs] at h2
          exact (Option.some.inj h2).symm
        rw [← hcseq]
        refine minDepth_le_bagDepth cs2 p.2 ?_ hsat2
        exact compileConstraints_flatNodup model C hcomp hndAct (s, cs2) hmem2
    have hfilter : ((([] : List (String × Bag)) ++ pre ++ (s, b) :: post).filter
        (fun p => p.1 == s)) =
        pre.filter (fun p => p.1 == s) ++ (s, b) :: post.filter (fun p => p.1 == s) := by
      simp [List.filter_append]
    rw [hshape, hfilter]
    cases hfp : pre.filter (fun p => p.1 == s) with
    | nil =>
      exact ⟨cs, b, hcs, rfl, hdb⟩
    | cons p0 rest2 =>
      have hp0 : p0 ∈ pre.filter (fun p => p.1 == s) := by
        rw [hfp]
        exact List.mem_cons_self p0 rest2
      have hp0f := List.mem_filter.mp hp0
      have hp0s : p0.1 = s := by
        have h2 := hp0f.2
        simpa using h2
      have hp0tr : p0 ∈ tr := by
        rw [hshape]
        simp [hp0f.1]
      have hle : bagDepth p0.2 ≤ minDepth cs := hpre p0 hp0f.1
      have hge : minDepth cs ≤ bagDepth p0.2 := hlower p0 hp0tr hp0s
      refine ⟨cs, p0.2, hcs, ?_, by omega⟩
      have hp0eq : p0 = (s, p0.2) := by
        rw [← hp0s]
      exact congrArg some hp0eq


/-- Passing the second validity loop means every action state has a
constraint entry. -/
theorem checkAllConstrained_sound (cons : List (String × ConstraintEntry)) :
    ∀ as : List String, checkAllConstrained cons as = .ok () →
      ∀ a ∈ as, ∃ e, dictGet cons a = some e := by
  intro as
  induction as with
  | nil => intro _ a ha; cases ha
  | cons a rest ih =>
    intro h b hb
    rw [checkAllConstrained] at h
    split at h
    next hsome =>
      rcases List.mem_cons.mp hb with hb | hb
      · rw [hb]
        exact Option.isSome_iff_exists.mp hsome
      · exact ih h b hb
    · cases h

/-- The first compilation pass succeeds when every action state has an
entry. -/
theorem compileBase_ok (cons : List (String × ConstraintEntry)) :
    ∀ as : List String, (∀ a ∈ as, ∃ e, dictGet cons a = some e) →
      ∃ cs, compileBase cons as = .ok cs := by
  intro as
  induction as with
  | nil => intro _; exact ⟨[], rfl⟩
  | cons a rest ih =>
    intro h
    obtain ⟨e, he⟩ := h a (List.mem_cons_self a rest)
    obtain ⟨cs, hcs⟩ := ih (fun b hb => h b (List.mem_cons_of_mem a hb))
    cases e with
    | exact n => exact ⟨Clause.mk [a] n (some n) :: cs, by rw [compileBase, he, hcs]⟩
    | atLeast n => exact ⟨Clause.mk [a] n none :: cs, by rw [compileBase, he, hcs]⟩
    | range n m => exact ⟨Clause.mk [a] n (some m) :: cs, by rw [compileBase, he, hcs]⟩
    | xref t => exact ⟨cs, by rw [compileBase, he, hcs]⟩

/-- The cross-reference pass succeeds when every action state has an
entry. -/
theorem compileXrefs_ok (cons : List (String × ConstraintEntry)) :
    ∀ (as : List String), (∀ a ∈ as, ∃ e, dictGet cons a = some e) →
      ∀ acc, ∃ out, compileXrefs cons acc as = .ok out := by
  intro as
  induction as with
  | nil => intro _ acc; exact ⟨acc, rfl⟩
  | cons a rest ih =>
    intro h acc
    obtain ⟨e, he⟩ := h a (List.mem_cons_self a rest)
    have hrest := fun b hb => h b (List.mem_cons_of_mem a hb)
    cases e with
    | exact n =>
      obtain ⟨out, hout⟩ := ih hrest acc
      exact ⟨out, by rw [compileXrefs, he, hout]⟩
    | atLeast n =>
      obtain ⟨out, hout⟩ := ih hrest acc
      exact ⟨out, by rw [compileXrefs, he, hout]⟩
    | range n m =>
      obtain ⟨out, hout⟩ := ih hrest acc
      exact ⟨out, by rw [compileXrefs, he, hout]⟩
    | xref t =>
      obtain ⟨out, hout⟩ := ih hrest (addXref t a acc)
      refine ⟨out, ?_⟩
      rw [compileXrefs, he]
      exact hout

/-- Per-state compilation succeeds when every action state has an entry. -/
theorem compileState_ok (as : List String) (cons : List (String × ConstraintEntry))
    (h : ∀ a ∈ as, ∃ e, dictGet cons a = some e) :
    ∃ cs, compileState as cons = .ok cs := by
  obtain ⟨base, hbase⟩ := compileBase_ok cons as h
  obtain ⟨out, hout⟩ := compileXrefs_ok cons as h base
  refine ⟨out, ?_⟩
  rw [compileState, hbase]
  exact hout

/-- A model accepted by the validity check passes it state by state. -/
theorem validityLoop_sound (actions : List String) :
    ∀ l : List (String × ConstrainedState), validityLoop actions l = .ok () →
      ∀ p ∈ l, checkValidityState actions p.2.constraints = .ok () := by
  intro l
  induction l with
  | nil => intro _ p hp; cases hp
  | cons q rest ih =>
    intro h p hp
    rw [validityLoop] at h
    split at h
    · cases h
    next hok =>
      rcases List.mem_cons.mp hp with hp | hp
      · rw [hp]
        have : checkValidityState actions q.2.constraints = .ok () := by
          cases hv : checkValidityState actions q.2.constraints with
          | error e => rw [hv] at hok; cases hok
          | ok u => cases u; rfl
        exact this
      · exact ih h p hp

/-- The components of the per-state validity check. -/
theorem checkValidityState_parts (actions : List String)
    (cons : List (String × ConstraintEntry))
    (h : checkValidityState actions cons = .ok ()) :
    checkAllConstrained cons actions = .ok () ∧ checkXrefs actions cons cons = .ok () := by
  rw [checkValidityState] at h
  split at h
  · cases h
  · split at h
    · cases h
    next u hu =>
      cases u
      exact ⟨hu, h⟩

/-- The open- and shut-state pass succeeds when each state compiles. -/
theorem compileOpenShut_ok (actions : List String) :
    ∀ l : List (String × ConstrainedState),
      (∀ p ∈ l, ∃ cs, compileState actions p.2.constraints = .ok cs) →
      ∀ acc, ∃ out, compileOpenShut actions l acc = .ok out := by
  intro l
  induction l with
  | nil => intro _ acc; exact ⟨acc, rfl⟩
  | cons q rest ih =>
    intro h acc
    obtain ⟨cs, hcs⟩ := h q (List.mem_cons_self q rest)
    obtain ⟨out, hout⟩ := ih (fun p hp => h p (List.mem_cons_of_mem q hp)) (dictSet acc q.1 cs)
    refine ⟨out, ?_⟩
    rw [compileOpenShut, hcs]
    exact hout

/-- Compilation succeeds on a model accepted by the validity check. -/
theorem compileConstraints_ok (model : StateModel)
    (hval : checkModelValidity model = .ok ()) :
    ∃ C, compileConstraints model = .ok C := by
  have hstates := validityLoop_sound (actionNames model) _ hval
  have hcomp : ∀ p ∈ model.open_states ++ model.shut_states,
      ∃ cs, compileState (actionNames model) p.2.constraints = .ok cs := by
    intro p hp
    have hparts := checkValidityState_parts (actionNames model) p.2.constraints (hstates p hp)
    exact compileState_ok (actionNames model) p.2.constraints
      (checkAllConstrained_sound p.2.constraints (actionNames model) hparts.1)
  obtain ⟨out, hout⟩ := compileOpenShut_ok (actionNames model) _ hcomp
    (compileEmpty (zeroClauses (actionNames model)) model.empty_states [])
  exact ⟨out, hout⟩


/-- The first compilation pass produces only non-empty clauses. -/
theorem compileBase_ne (cons : List (String × ConstraintEntry)) :
    ∀ (as : List String) (cs : List Clause), compileBase cons as = .ok cs →
      ∀ cl ∈ cs, cl.actions ≠ [] := by
  intro as
  induction as with
  | nil =>
    intro cs h cl hcl
    rw [compileBase] at h
    injection h with h
    rw [← h] at hcl
    cases hcl
  | cons a rest ih =>
    intro cs h cl hcl
    rw [compileBase] at h
    split at h
    · cases h
    next n heq =>
      split at h
      next cs2 heq2 =>
        injection h with h
        rw [← h] at hcl
        rcases List.mem_cons.mp hcl with hcl | hcl
        · rw [hcl]
          simp
        · exact ih cs2 heq2 cl hcl
      · cases h
    next n heq =>
      split at h
      next cs2 heq2 =>
        injection h with h
        rw [← h] at hcl
        rcases List.mem_cons.mp hcl with hcl | hcl
        · rw [hcl]
          simp
        · exact ih cs2 heq2 cl hcl
      · cases h
    next n m heq =>
      split at h
      next cs2 heq2 =>
        injection h with h
        rw [← h] at hcl
        rcases List.mem_cons.mp hcl with hcl | hcl
        · rw [hcl]
          simp
        · exact ih cs2 heq2 cl hcl
      · cases h
    next t heq =>
      exact ih cs h cl hcl

/-- The first compilation pass creates a clause headed by every concrete
action state. -/
theorem compileBase_heads (cons : List (String × ConstraintEntry)) :
    ∀ (as : List String) (cs : List Clause), compileBase cons as = .ok cs →
      ∀ c ∈ as, xrefFlag cons c = false → ∃ cl ∈ cs, cl.actions.head? = some c := by
  intro as
  induction as with
  | nil => intro cs _ c hc; cases hc
  | cons a rest ih =>
    intro cs h c hc hflag
    rw [compileBase] at h
    split at h
    · cases h
    next n heq =>
      split at h
      next cs2 heq2 =>
        injection h with h
        rcases List.mem_cons.mp hc with hc | hc
        · refine ⟨Clause.mk [a] n (some n), ?_, by simp [hc]⟩
          rw [← h]
          exact List.mem_cons_self _ _
        · obtain ⟨cl, hcl, hhead⟩ := ih cs2 heq2 c hc hflag
          refine ⟨cl, ?_, hhead⟩
          rw [← h]
          exact List.mem_cons_of_mem _ hcl
      · cases h
    next n heq =>
      split at h
      next cs2 heq2 =>
        injection h with h
        rcases List.mem_cons.mp hc with hc | hc
        · refine ⟨Clause.mk [a] n none, ?_, by simp [hc]⟩
          rw [← h]
          exact List.mem_cons_self _ _
        · obtain ⟨cl, hcl, hhead⟩ := ih cs2 heq2 c hc hflag
          refine ⟨cl, ?_, hhead⟩
          rw [← h]
          exact List.mem_cons_of_mem _ hcl
      · cases h
    next n m heq =>
      split at h
      next cs2 heq2 =>
        injection h with h
        rcases List.mem_cons.mp hc with hc | hc
        · refine ⟨Clause.mk [a] n (some m), ?_, by simp [hc]⟩
          rw [← h]
          exact List.mem_cons_self _ _
        · obtain ⟨cl, hcl, hhead⟩ := ih cs2 heq2 c hc hflag
          refine ⟨cl, ?_, hhead⟩
          rw [← h]
          exact List.mem_cons_of_mem _ hcl
      · cases h
    next t heq =>
      rcases List.mem_cons.mp hc with hc | hc
      · rw [xrefFlag, hc, heq] at hflag
        cases hflag
      · exact ih cs h c hc hflag

/-- Appending to a non-empty list keeps its head. -/
theorem head?_append_singleton (l : List String) (a : String) (h : l ≠ []) :
    (l ++ [a]).head? = l.head? := by
  cases l with
  | nil => exact absurd rfl h
  | cons x rest => rfl

/-- Merging a cross reference keeps every clause non-empty. -/
theorem addXref_ne (c a : String) :
    ∀ cs : List Clause, (∀ cl ∈ cs, cl.actions ≠ []) →
      ∀ cl ∈ addXref c a cs, cl.actions ≠ [] := by
  intro cs
  induction cs with
  | nil => intro _ cl hcl; cases hcl
  | cons cl0 rest ih =>
    intro hne cl hcl
    rw [addXref] at hcl
    split at hcl
    · rcases List.mem_cons.mp hcl with hcl | hcl
      · rw [hcl]
        simp
      · exact hne cl (List.mem_cons_of_mem cl0 hcl)
    · rcases List.mem_cons.mp hcl with hcl | hcl
      · rw [hcl]
        exact hne cl0 (List.mem_cons_self cl0 rest)
      · exact ih (fun cl2 h2 => hne cl2 (List.mem_cons_of_mem cl0 h2)) cl hcl

/-- Merging a cross reference keeps every clause head. -/
theorem addXref_heads (c a c0 : String) :
    ∀ cs : List Clause, (∀ cl ∈ cs, cl.actions ≠ []) →
      (∃ cl ∈ cs, cl.actions.head? = some c0) →
      ∃ cl ∈ addXref c a cs, cl.actions.head? = some c0 := by
  intro cs
  induction cs with
  | nil => intro _ h; obtain ⟨cl, hcl, _⟩ := h; cases hcl
  | cons cl0 rest ih =>
    intro hne h
    obtain ⟨cl, hcl, hhead⟩ := h
    rw [addXref]
    split
    next hc0 =>
      rcases List.mem_cons.mp hcl with hcl | hcl
      · refine ⟨Clause.mk (cl0.actions ++ [a]) cl0.lo cl0.hi, List.mem_cons_self _ _, ?_⟩
        rw [← hcl]
        show (cl.actions ++ [a]).head? = some c0
        rw [head?_append_singleton cl.actions a (hne cl (hcl ▸ List.mem_cons_self cl0 rest))]
        exact hhead
      · exact ⟨cl, List.mem_cons_of_mem _ hcl, hhead⟩
    next hc0 =>
      rcases List.mem_cons.mp hcl with hcl | hcl
      · exact ⟨cl0, List.mem_cons_self _ _, hcl ▸ hhead⟩
      · obtain ⟨cl2, hcl2, hhead2⟩ := ih
          (fun cl3 h3 => hne cl3 (List.mem_cons_of_mem cl0 h3)) ⟨cl, hcl, hhead⟩
        exact ⟨cl2, List.mem_cons_of_mem _ hcl2, hhead2⟩

/-- When the target clause exists, merging a cross reference adds exactly
the merged action state to the classes. -/
theorem addXref_found_perm (c a : String) :
    ∀ cs : List Clause, (∃ cl ∈ cs, cl.actions.head? = some c) →
      (clauseActions (addXref c a cs)).Perm (a :: clauseActions cs) := by
  intro cs
  induction cs with
  | nil => intro h; obtain ⟨cl, hcl, _⟩ := h; cases hcl
  | cons cl0 rest ih =>
    intro h
    by_cases hc : cl0.actions.head? = some c
    · rw [addXref, if_pos hc]
      show ((cl0.actions ++ [a]) ++ clauseActions rest).Perm (a :: (cl0.actions ++ clauseActions rest))
      have h1 : (cl0.actions ++ [a]) ++ clauseActions rest = cl0.actions ++ (a :: clauseActions rest) := by
        simp
      rw [h1]
      exact List.perm_middle
    · rw [addXref, if_neg hc]
      obtain ⟨cl, hcl, hhead⟩ := h
      rcases List.mem_cons.mp hcl with hcl | hcl
      · exact absurd (hcl ▸ hhead) hc
      · have hperm := ih ⟨cl, hcl, hhead⟩
        show (cl0.actions ++ clauseActions (addXref c a rest)).Perm (a :: (cl0.actions ++ clauseActions rest))
        refine ((hperm.append_left cl0.actions).trans ?_)
        exact List.perm_middle

/-- Passing the third validity loop bounds every cross reference: its
target is declared and concretely constrained. -/
theorem checkXrefs_sound (actions : List String) (cons : List (String × ConstraintEntry)) :
    ∀ l : List (String × ConstraintEntry), checkXrefs actions cons l = .ok () →
      ∀ p ∈ l, ∀ t, p.2 = .xref t → t ∈ actions ∧ xrefFlag cons t = false := by
  intro l
  induction l with
  | nil => intro _ p hp; cases hp
  | cons q rest ih =>
    obtain ⟨a, c⟩ := q
    intro h p hp t ht
    cases c with
    | xref t2 =>
      rw [checkXrefs] at h
      split at h
      next hmem =>
        split at h
        · cases h
        next e hne2 heq2 =>
          rcases List.mem_cons.mp hp with hp | hp
          · have ht2 : ConstraintEntry.xref t2 = ConstraintEntry.xref t := by
              rw [hp] at ht
              exact ht
            injection ht2 with ht2
            subst ht2
            refine ⟨hmem, ?_⟩
            rw [xrefFlag, heq2]
            cases e with
            | exact n => rfl
            | atLeast n => rfl
            | range n m => rfl
            | xref t3 => exact absurd rfl (hne2 t3)
          · exact ih h p hp t ht
        · cases h
      · cases h
    | exact n =>
      simp only [checkXrefs] at h
      rcases List.mem_cons.mp hp with hp | hp
      · rw [hp] at ht
        cases ht
      · exact ih h p hp t ht
    | atLeast n =>
      simp only [checkXrefs] at h
      rcases List.mem_cons.mp hp with hp | hp
      · rw [hp] at ht
        cases ht
      · exact ih h p hp t ht
    | range n m =>
      simp only [checkXrefs] at h
      rcases List.mem_cons.mp hp with hp | hp
      · rw [hp] at ht
        cases ht
      · exact ih h p hp t ht


/-- The cross-reference pass adds exactly the pending cross-referencing
states to the classes when their targets resolve. -/
theorem compileXrefs_perm (cons : List (String × ConstraintEntry)) (asAll : List String) :
    ∀ (rem : List String) (acc out : List Clause),
      (∀ a ∈ rem, ∀ t, dictGet cons a = some (.xref t) →
        t ∈ asAll ∧ xrefFlag cons t = false) →
      (∀ c ∈ asAll, xrefFlag cons c = false → ∃ cl ∈ acc, cl.actions.head? = some c) →
      (∀ cl ∈ acc, cl.actions ≠ []) →
      compileXrefs cons acc rem = .ok out →
      (clauseActions out).Perm (clauseActions acc ++ rem.filter (fun a => xrefFlag cons a)) ∧
      (∀ cl ∈ out, cl.actions ≠ []) := by
  intro rem
  induction rem with
  | nil =>
    intro acc out _ _ hne h
    rw [compileXrefs] at h
    injection h with h
    subst h
    exact ⟨by simp, hne⟩
  | cons a rest ih =>
    intro acc out hvalid hheads hne h
    rw [compileXrefs] at h
    split at h
    · cases h
    next t heq =>
      have hflag : xrefFlag cons a = true := by
        rw [xrefFlag, heq]
      have hta := hvalid a (List.mem_cons_self a rest) t heq
      have hfound : ∃ cl ∈ acc, cl.actions.head? = some t := hheads t hta.1 hta.2
      have hperm1 := addXref_found_perm t a acc hfound
      have hne2 := addXref_ne t a acc hne
      have hheads2 : ∀ c ∈ asAll, xrefFlag cons c = false →
          ∃ cl ∈ addXref t a acc, cl.actions.head? = some c := by
        intro c hc hfc
        exact addXref_heads t a c acc hne (hheads c hc hfc)
      obtain ⟨hperm2, hne3⟩ := ih (addXref t a acc) out
        (fun b hb => hvalid b (List.mem_cons_of_mem a hb)) hheads2 hne2 h
      refine ⟨?_, hne3⟩
      rw [List.filter_cons, hflag, if_pos rfl]
      refine hperm2.trans ?_
      refine (hperm1.append_right _).trans ?_
      exact List.perm_middle.symm
    next e hnex heq =>
      have hflag : xrefFlag cons a = false := by
        rw [xrefFlag, heq]
        cases e with
        | exact n => rfl
        | atLeast n => rfl
        | range n m => rfl
        | xref t => exact absurd rfl (hnex t)
      obtain ⟨hperm2, hne3⟩ := ih acc out
        (fun b hb => hvalid b (List.mem_cons_of_mem a hb)) hheads hne h
      refine ⟨?_, hne3⟩
      rw [List.filter_cons]
      simp only [hflag, Bool.false_eq_true, if_false]
      exact hperm2

/-- The compiled clauses of a valid constrained state use every declared
action state exactly once, counted with multiplicity, and are non-empty. -/
theorem compileState_partition (as : List String) (cons : List (String × ConstraintEntry))
    (cs : List Clause)
    (hx : ∀ a ∈ as, ∀ t, dictGet cons a = some (.xref t) →
      t ∈ as ∧ xrefFlag cons t = false)
    (h : compileState as cons = .ok cs) :
    (clauseActions cs).Perm as ∧ (∀ cl ∈ cs, cl.actions ≠ []) := by
  unfold compileState at h
  split at h
  next base hbase =>
    have hflat := compileBase_flat cons as base hbase
    have hne := compileBase_ne cons as base hbase
    have hheads : ∀ c ∈ as, xrefFlag cons c = false →
        ∃ cl ∈ base, cl.actions.head? = some c :=
      compileBase_heads cons as base hbase
    obtain ⟨hperm, hne2⟩ := compileXrefs_perm cons as as base cs hx hheads hne h
    refine ⟨?_, hne2⟩
    refine hperm.trans ?_
    rw [hflat]
    refine (List.perm_append_comm).trans ?_
    exact List.filter_append_perm (fun a => xrefFlag cons a) as
  · cases h

/-- Globally duplicate-free classes are pairwise disjoint. -/
theorem flat_nodup_pairwise :
    ∀ cs : List Clause, (clauseActions cs).Nodup →
      List.Pairwise (fun c1 c2 => ∀ a, a ∈ c1.actions → a ∉ c2.actions) cs := by
  intro cs
  induction cs with
  | nil => intro _; exact List.Pairwise.nil
  | cons cl rest ih =>
    intro hnd
    rw [clauseActions, List.map_cons, List.flatten_cons, List.nodup_append] at hnd
    obtain ⟨h1, h2, hdisj⟩ := hnd
    refine List.pairwise_cons.mpr ⟨?_, ih h2⟩
    intro c2 hc2 a ha hacontra
    exact hdisj ha (List.mem_flatten.mpr
      ⟨c2.actions, List.mem_map_of_mem (fun cl => cl.actions) hc2, hacontra⟩)

/-- A class multiset holding an action state exactly once pins it to exactly
one clause. -/
theorem countP_eq_one_of_count_sum (a : String) :
    ∀ cs : List Clause, ((cs.map (fun cl => cl.actions.count a)).sum = 1) →
      cs.countP (fun cl => decide (a ∈ cl.actions)) = 1 := by
  intro cs
  induction cs with
  | nil => intro h; cases h
  | cons cl rest ih =>
    intro h
    rw [List.map_cons, List.sum_cons] at h
    by_cases hmem : a ∈ cl.actions
    · have hpos : 0 < cl.actions.count a := List.count_pos_iff.mpr hmem
      have hrest0 : rest.countP (fun cl => decide (a ∈ cl.actions)) = 0 := by
        rw [List.countP_eq_zero]
        intro cl2 hcl2
        simp only [decide_eq_true_eq]
        intro hmem2
        have hp2 : 0 < cl2.actions.count a := List.count_pos_iff.mpr hmem2
        have hle : cl2.actions.count a ≤ (rest.map (fun cl => cl.actions.count a)).sum :=
          List.single_le_sum (fun x _ => Nat.zero_le x) _
            (List.mem_map_of_mem (fun cl => cl.actions.count a) hcl2)
        omega
      rw [List.countP_cons, hrest0]
      simp [hmem]
    · have h0 : cl.actions.count a = 0 := by
        rw [List.count_eq_zero]
        exact hmem
      rw [List.countP_cons]
      simp only [decide_eq_false hmem, if_false, Nat.add_zero]
      exact ih (by omega)

/-- Non-empty clauses of the zero constraints. -/
theorem zeroClauses_ne (as : List String) : ∀ cl ∈ zeroClauses as, cl.actions ≠ [] := by
  intro cl hcl
  obtain ⟨a, _, ha⟩ := List.mem_map.mp hcl
  rw [← ha]
  simp

/-- From duplicate-free action states and a permutation of the classes:
pairwise disjointness and the exactly-once count. -/
theorem clause_partition_props (cs : List Clause) (as : List String)
    (hnd : as.Nodup) (hperm : (clauseActions cs).Perm as) :
    List.Pairwise (fun c1 c2 => ∀ a, a ∈ c1.actions → a ∉ c2.actions) cs ∧
    ∀ a ∈ as, cs.countP (fun cl => decide (a ∈ cl.actions)) = 1 := by
  have hflatnd : (clauseActions cs).Nodup := hperm.nodup_iff.mpr hnd
  refine ⟨flat_nodup_pairwise cs hflatnd, ?_⟩
  intro a ha
  have hain : a ∈ clauseActions cs := hperm.mem_iff.mpr ha
  have hcount1 : (clauseActions cs).count a = 1 := List.count_eq_one_of_mem hflatnd hain
  rw [clauseActions, List.count_flatten, List.map_map] at hcount1
  refine countP_eq_one_of_count_sum a cs ?_
  rw [← hcount1]
  rfl

/-- Claim C6: for every state model that passes `checkModelPartition` and
`checkModelValidity`, `compileConstraints` succeeds and, for each compiled
project state, the clause classes are pairwise disjoint, non-empty, and use
every declared action state in exactly one clause (their concatenation is a
permutation of the declared action states). -/
theorem claim_C6 (model : StateModel)
    (hpart : checkModelPartition model = .ok ())
    (hval : checkModelValidity model = .ok ()) :
    ∃ C, compileConstraints model = .ok C ∧
      ∀ s cs, (s, cs) ∈ C →
        (∀ cl ∈ cs, cl.actions ≠ []) ∧
        (clauseActions cs).Perm (actionNames model) ∧
        List.Pairwise (fun c1 c2 => ∀ a, a ∈ c1.actions → a ∉ c2.actions) cs ∧
        ∀ a ∈ actionNames model, cs.countP (fun cl => decide (a ∈ cl.actions)) = 1 := by
  obtain ⟨hndAct, hr1, hr2, hr3⟩ := checkModelPartition_facts model hpart
  obtain ⟨C, hC⟩ := compileConstraints_ok model hval
  refine ⟨C, hC, ?_⟩
  intro s cs hmem
  have hprops : (clauseActions cs).Perm (actionNames model) ∧ (∀ cl ∈ cs, cl.actions ≠ []) := by
    rcases compileConstraints_mem model C hC (s, cs) hmem with h | h
    · have h2 : cs = zeroClauses (actionNames model) := h
      rw [h2]
      rw [show clauseActions (zeroClauses (actionNames model)) = actionNames model from
        zeroClauses_flat (actionNames model)]
      exact ⟨List.Perm.refl _, zeroClauses_ne (actionNames model)⟩
    · obtain ⟨q, hq, hcs⟩ := h
      have hvs := validityLoop_sound (actionNames model) _ hval q hq
      obtain ⟨hall0, hx0⟩ := checkValidityState_parts _ _ hvs
      have hx : ∀ a ∈ actionNames model, ∀ t,
          dictGet q.2.constraints a = some (.xref t) →
          t ∈ actionNames model ∧ xrefFlag q.2.constraints t = false := by
        intro a ha t hat
        exact checkXrefs_sound (actionNames model) q.2.constraints q.2.constraints hx0
          (a, .xref t) (dictGet_mem q.2.constraints a (.xref t) hat) t rfl
      exact compileState_partition (actionNames model) q.2.constraints cs hx hcs
  obtain ⟨hperm, hne⟩ := hprops
  have hpp := clause_partition_props cs (actionNames model) hndAct hperm
  exact ⟨hne, hperm, hpp.1, hpp.2⟩

/-- Witness for claim C6 at a model with a cross reference. -/
theorem claim_C6_witness :
    checkModelPartition modelXref = .ok () ∧
    checkModelValidity modelXref = .ok () ∧
    (∃ C, compileConstraints modelXref = .ok C ∧
      ∀ s cs, (s, cs) ∈ C →
        (∀ cl ∈ cs, cl.actions ≠ []) ∧
        (clauseActions cs).Perm (actionNames modelXref) ∧
        List.Pairwise (fun c1 c2 => ∀ a, a ∈ c1.actions → a ∉ c2.actions) cs ∧
        ∀ a ∈ actionNames modelXref, cs.countP (fun cl => decide (a ∈ cl.actions)) = 1) :=
  ⟨rfl, rfl, claim_C6 modelXref rfl rfl⟩


/-- Witness for claim C3 at `modelCutoff`: every project state is first
yielded at the minimal depth of its clauses. -/
theorem claim_C3_witness :
    checkModelPartition modelCutoff = .ok () ∧
    compileConstraints modelCutoff = .ok compiledCutoff ∧
    checkModelSatisfactionT 40 modelCutoff = .ok (true, traceCutoff) ∧
    (∀ s ∈ modelCutoff.empty_states.map Prod.fst ++
        modelCutoff.open_states.map Prod.fst ++
        modelCutoff.shut_states.map Prod.fst,
      ∃ cs b, dictGet compiledCutoff s = some cs ∧
        (traceCutoff.filter (fun p => p.1 == s)).head? = some (s, b) ∧
        bagDepth b = minDepth cs) :=
  ⟨rfl, rfl, rfl, claim_C3 modelCutoff 40 compiledCutoff traceCutoff rfl rfl rfl⟩

/-- Witness for claim C4 at `modelCutoff`: every yielded bag is the start
bag or is uniquely classified. -/
theorem claim_C4_witness :
    compileConstraints modelCutoff = .ok compiledCutoff ∧
    checkModelSatisfactionT 40 modelCutoff = .ok (true, traceCutoff) ∧
    ∀ p ∈ traceCutoff, p.2 = startBag modelCutoff ∨
      classifiers compiledCutoff p.2 = [p.1] :=
  ⟨rfl, rfl, claim_C4 modelCutoff 40 compiledCutoff true traceCutoff rfl rfl⟩

end Robant
